import Mathlib

/-!
Verification of the kronix-scripts toolchain builder (kronixpy).

The Python sources are shallowly embedded: pure fragments become Lean
functions, exceptions become an explicit error type, the ambient process
state (environment variables, working directory) becomes explicit state
passing, and filesystem paths are modelled as lists of path segments
(`str(dir) + "/" + name` becomes `dir ++ [name]`).
-/

namespace Kronix

/-- Exceptions raised (or propagated) by the embedded code.  Each
constructor corresponds to a concrete Python exception class observed in
the sources: `KeyboardInterrupt`, the repository's `AlreadyPrinted`
abort marker, `KeyError` (dbm lookup), `StopIteration`, `NotADirectoryError`,
`FileNotFoundError` (from `Path.resolve(strict=True)`), `ValueError`
(enum coercion), `IndexError` (list subscript), `RuntimeError` with the
file-tracker message, a generic exception carrying a message, and
`ExceptionGroup` aggregating two failures.
The `versionResolutionError` constructor is Modelled from the spec: the
spec's error taxonomy names a dedicated `VersionResolutionError`, but no
such class exists anywhere in the sources; the constructor only serves to
state what the spec expects. -/
inductive PyExc where
  | keyboardInterrupt
  | alreadyPrinted
  | keyError
  | stopIteration
  | notADirectory
  | fileNotFound
  | valueError
  | indexError
  | runtimeError (path : List String)
  | versionResolutionError
  | unreachableError
  | other (msg : String)
  | exceptionGroup (e1 e2 : PyExc)
deriving DecidableEq, Repr

deriving instance DecidableEq for Except

/-- The `ToolchainComponent` enumeration from `toolchain/__init__.py`,
including the pseudo-member `ALL`. -/
inductive Component where
  | all | binutils | nasm | gcc | gdb | qemu | limine
deriving DecidableEq, Repr

/-- The `StrEnum` value of each component. -/
def Component.name : Component → String
  | .all => "all"
  | .binutils => "binutils"
  | .nasm => "nasm"
  | .gcc => "gcc"
  | .gdb => "gdb"
  | .qemu => "qemu"
  | .limine => "limine"

/-- `ToolchainComponent(name)`: coercion from a string, `ValueError`
(`none`) when the string is no member value. -/
def Component.ofName (s : String) : Option Component :=
  if s = "all" then some .all
  else if s = "binutils" then some .binutils
  else if s = "nasm" then some .nasm
  else if s = "gcc" then some .gcc
  else if s = "gdb" then some .gdb
  else if s = "qemu" then some .qemu
  else if s = "limine" then some .limine
  else none

/-! ## C10: `list_to_pathvar` / `list_from_pathvar` (utils/__init__.py, POSIX branch)

Strings are modelled as lists of characters.  `str.split(sep)` for a
single-character separator is `pySplitChar`, `os.pathsep.join` is
`pyJoin`; on POSIX `os.pathsep` is `':'`. -/

/-- Python `s.split(sep)` for a one-character separator `sep`:
`"".split(sep) == [""]`, `"a:b".split(":") == ["a","b"]`,
`"a::b".split(":") == ["a","","b"]`. -/
def pySplitChar (sep : Char) : List Char → List (List Char)
  | [] => [[]]
  | c :: cs =>
    match pySplitChar sep cs with
    | [] => [[]]
    | g :: gs => if c = sep then [] :: g :: gs else (c :: g) :: gs

/-- Python `sep.join(paths)` for a one-character separator. -/
def pyJoin (sep : Char) : List (List Char) → List Char
  | [] => []
  | [p] => p
  | p :: q :: rest => p ++ sep :: pyJoin sep (q :: rest)

/-- `list_to_pathvar` (POSIX branch): `os.pathsep.join(paths)`. -/
def list_to_pathvar (paths : List (List Char)) : List Char :=
  pyJoin ':' paths

/-- `list_from_pathvar` (POSIX branch) applied to a string:
`path.split(os.pathsep)`. -/
def list_from_pathvar (path : List Char) : List (List Char) :=
  pySplitChar ':' path

theorem pySplitChar_ne_nil (sep : Char) (s : List Char) :
    pySplitChar sep s ≠ [] := by
  cases s with
  | nil => simp [pySplitChar]
  | cons c cs =>
    simp only [pySplitChar]
    cases h : pySplitChar sep cs with
    | nil => simp
    | cons g gs =>
      by_cases hc : c = sep <;> simp [hc]

theorem pySplitChar_no_sep (sep : Char) (p : List Char) (hp : sep ∉ p) :
    pySplitChar sep p = [p] := by
  induction p with
  | nil => rfl
  | cons c cs ih =>
    have hc : c ≠ sep := fun h => hp (h ▸ List.mem_cons_self c cs)
    have hcs : sep ∉ cs := fun h => hp (List.mem_cons_of_mem c h)
    simp only [pySplitChar, ih hcs]
    simp [hc]

theorem pySplitChar_append_sep (sep : Char) (p t : List Char) (hp : sep ∉ p) :
    pySplitChar sep (p ++ sep :: t) = p :: pySplitChar sep t := by
  induction p with
  | nil =>
    simp only [List.nil_append, pySplitChar]
    cases h : pySplitChar sep t with
    | nil => exact absurd h (pySplitChar_ne_nil sep t)
    | cons g gs => simp
  | cons c cs ih =>
    have hc : c ≠ sep := fun h => hp (h ▸ List.mem_cons_self c cs)
    have hcs : sep ∉ cs := fun h => hp (List.mem_cons_of_mem c h)
    simp only [List.cons_append, pySplitChar, List.append_eq]
    rw [ih hcs]
    simp [hc]

/-- C10 counterexample: the claim quantifies over every list of paths
without the separator, but the empty list round-trips to `[""]`
(Python: `"".split(":") == [""]`), not to `[]`. -/
theorem pathvar_roundtrip_cx :
    list_from_pathvar (list_to_pathvar []) = [[]] ∧
    list_from_pathvar (list_to_pathvar []) ≠ ([] : List (List Char)) := by
  constructor <;> simp [list_from_pathvar, list_to_pathvar, pyJoin, pySplitChar]

/-- C10 (amended): on POSIX, for every NON-EMPTY list of path strings none
of which contains the path separator `':'`,
`list_from_pathvar (list_to_pathvar paths) = paths`; in particular
prepending an entry to a path list read from the environment preserves
every original entry in order. -/
theorem pathvar_roundtrip (paths : List (List Char))
    (hne : paths ≠ [])
    (hsep : ∀ p ∈ paths, ':' ∉ p) :
    list_from_pathvar (list_to_pathvar paths) = paths := by
  induction paths with
  | nil => exact absurd rfl hne
  | cons p rest ih =>
    cases rest with
    | nil =>
      simp only [list_from_pathvar, list_to_pathvar, pyJoin]
      exact pySplitChar_no_sep ':' p (hsep p (List.mem_cons_self p []))
    | cons q rest' =>
      have h1 : ':' ∉ p := hsep p (List.mem_cons_self _ _)
      have h2 : ∀ r ∈ q :: rest', ':' ∉ r := fun r hr => hsep r (List.mem_cons_of_mem p hr)
      have ihr := ih (by simp) h2
      simp only [list_from_pathvar, list_to_pathvar, pyJoin] at ihr ⊢
      rw [pySplitChar_append_sep ':' p _ h1, ihr]

theorem pathvar_roundtrip_witness :
    (['a'] :: ['b', 'c'] :: [] ≠ ([] : List (List Char))) ∧
    list_from_pathvar (list_to_pathvar (['a'] :: ['b', 'c'] :: [])) =
      ['a'] :: ['b', 'c'] :: [] :=
  ⟨by decide, pathvar_roundtrip (['a'] :: ['b', 'c'] :: []) (by decide) (by decide)⟩

/-! ## C9: `BuildAction` sub-step decoration (toolchain/__init__.py)

`BuildAction` is a `ReprEnum`; its `part` / `desc` property setters store
`self._part` / `self._part_desc` on `self`, which is the *shared*
enumeration member.  The mutable attributes of the four shared members
are modelled as an explicit `BuildActionState`. -/

/-- The four `BuildAction` enumeration members. -/
inductive BuildAction where
  | download | configure | build | install
deriving DecidableEq, Repr

/-- The per-member mutable attributes `_part` / `_part_desc`: absent
(`none`) on a freshly imported member. -/
structure ActionDeco where
  part : Option Nat
  partDesc : Option String
deriving DecidableEq, Repr

/-- The attribute dictionaries of the four shared enumeration members. -/
structure BuildActionState where
  downloadDeco : ActionDeco
  configureDeco : ActionDeco
  buildDeco : ActionDeco
  installDeco : ActionDeco
deriving DecidableEq, Repr

/-- State just after the module is imported: no member carries a
decoration. -/
def initActionState : BuildActionState :=
  ⟨⟨none, none⟩, ⟨none, none⟩, ⟨none, none⟩, ⟨none, none⟩⟩

/-- Attribute lookup on a member. -/
def getDeco (st : BuildActionState) : BuildAction → ActionDeco
  | .download => st.downloadDeco
  | .configure => st.configureDeco
  | .build => st.buildDeco
  | .install => st.installDeco

/-- The `part` property setter: `self._part = part`.  `self` is the
shared enumeration member, so the write lands in the shared state. -/
def setPart (st : BuildActionState) (a : BuildAction) (n : Nat) : BuildActionState :=
  match a with
  | .download => { st with downloadDeco := { st.downloadDeco with part := some n } }
  | .configure => { st with configureDeco := { st.configureDeco with part := some n } }
  | .build => { st with buildDeco := { st.buildDeco with part := some n } }
  | .install => { st with installDeco := { st.installDeco with part := some n } }

/-- `self.name.lower()`. -/
def BuildAction.lowerName : BuildAction → String
  | .download => "download"
  | .configure => "configure"
  | .build => "build"
  | .install => "install"

/-- `BuildAction.action(pkg)`: the status text derived from the member
name, the package and the optional decoration. -/
def actionText (st : BuildActionState) (a : BuildAction) (pkg : Component) : String :=
  match (getDeco st a).part, (getDeco st a).partDesc with
  | none, _ => a.lowerName ++ " " ++ pkg.name
  | some k, none => a.lowerName ++ " " ++ pkg.name ++ " (part " ++ toString k ++ ")"
  | some k, some d =>
      a.lowerName ++ " " ++ pkg.name ++ " (part " ++ toString k ++ ": " ++ d ++ ")"

/-- C9: the claim states that setting the sub-step decoration for one
invocation leaves the status text produced for any other invocation of
the same `BuildAction` unchanged.  In the code the setter writes
`self._part` onto the shared enumeration member, so after one invocation
sets `part := 1` on `INSTALL`, every other invocation that reads
`BuildAction.INSTALL.action(pkg)` sees the decorated text: the decoration
does live on the shared enumeration value. -/
theorem buildaction_shared_decoration :
    actionText (setPart initActionState .install 1) .install .gcc
      = "install gcc (part 1)" ∧
    actionText initActionState .install .gcc = "install gcc" ∧
    actionText (setPart initActionState .install 1) .install .gcc
      ≠ actionText initActionState .install .gcc := by
  refine ⟨rfl, rfl, ?_⟩
  decide

/-! ## C1 / C7: the version resolver (toolchain/kernel/build.py, utils/semver.py)

`_get_latest_version_from_http` / `_get_latest_version_from_ftp` share
their core: map the per-component pattern
`^/?(pkg-)?(\d+\.\d+(\.\d+)?)((\.(zip|tar.*)|/)?)$` over the listing
entries, keep the captured version groups, sort them with
`semver.sort(..., reverse=True)` and take element 0.  The regular
expression is hand-compiled into `matchVersion` (the alternatives never
overlap for the fixed component names, so maximal-munch parsing is
exact).  `semver.sort` delegates to `semantic_version.Version.coerce`,
which on the purely numeric 2-or-3-part versions produced by the pattern
is dotted-integer-tuple comparison with missing trailing components
treated as zero (`verKey`); Python's stable `sorted(reverse=True)` is a
stable sort by the reversed key order (`insertionSort verGE`). -/

/-- Numeric value of a digit run (the strings fed to it are produced by
the matcher and consist of decimal digits). -/
def natOfDigits (ds : List Char) : Nat :=
  ds.foldl (fun n c => 10 * n + (c.toNat - 48)) 0

/-- `Version.coerce`'s key for a dotted numeric version: pad to three
integer components. -/
def verKey (v : String) : Lex (Nat × Lex (Nat × Nat)) :=
  match (pySplitChar '.' v.toList).map natOfDigits with
  | [] => toLex (0, toLex (0, 0))
  | [a] => toLex (a, toLex (0, 0))
  | [a, b] => toLex (a, toLex (b, 0))
  | a :: b :: c :: _ => toLex (a, toLex (b, c))

/-- The optional tail `((\.(zip|tar.*)|/)?)$` of the version pattern:
nothing, a single slash, exactly `.zip`, or `.tar` followed by
anything. -/
def checkOptSuffix (r : List Char) : Bool :=
  r == [] || r == ['/'] || r == ['.', 'z', 'i', 'p'] ||
    r.take 4 == ['.', 't', 'a', 'r']

/-- `REG_VERSION[pkg].match(entry)` followed by `.group("version")`:
returns the captured dotted version when the whole entry matches the
strict pattern (`REG_VERSION` is built for every non-pseudo component). -/
def matchVersion (pkg : Component) (entry : String) : Option String :=
  let cs0 := entry.toList
  let cs1 := match cs0 with
    | '/' :: rest => rest
    | rest => rest
  let pfx := (pkg.name ++ "-").toList
  let cs2 := if pfx.isPrefixOf cs1 then cs1.drop pfx.length else cs1
  let s1 := cs2.span Char.isDigit
  if s1.1.isEmpty then none else
  match s1.2 with
  | '.' :: r1 =>
    let s2 := r1.span Char.isDigit
    if s2.1.isEmpty then none else
    match s2.2 with
    | '.' :: r2 =>
      let s3 := r2.span Char.isDigit
      if s3.1.isEmpty then
        -- the third dotted group is absent; the dot must open the suffix
        if checkOptSuffix s2.2 then some (String.mk (s1.1 ++ '.' :: s2.1))
        else none
      else
        if checkOptSuffix s3.2 then
          some (String.mk (s1.1 ++ '.' :: s2.1 ++ '.' :: s3.1))
        else none
    | _ =>
      if checkOptSuffix s2.2 then some (String.mk (s1.1 ++ '.' :: s2.1))
      else none
  | _ => none

/-- Descending comparison used by `sorted(key=Version.coerce,
reverse=True)`. -/
def verGE (a b : String) : Prop := verKey b ≤ verKey a

instance : DecidableRel verGE :=
  fun a b => inferInstanceAs (Decidable (verKey b ≤ verKey a))

instance : IsTotal String verGE :=
  ⟨fun a b => le_total (verKey b) (verKey a)⟩

instance : IsTrans String verGE :=
  ⟨fun _ _ _ hab hbc => le_trans hbc hab⟩

/-- `semver.sort(versions, reverse=True)`: a stable sort by the coerced
version key, greatest first. -/
def semverSortRev (versions : List String) : List String :=
  List.insertionSort verGE versions

/-- The shared core of `_get_latest_version_from_http` and
`_get_latest_version_from_ftp`, applied to the listing entries (anchor
text for HTTP, `NLST` names for FTP): filter by the pattern, sort
descending, take `versions[0]` (an `IndexError` when nothing matched —
there is no dedicated resolution-error type in the code). -/
def latestVersion (pkg : Component) (entries : List String) : Except PyExc String :=
  match semverSortRev (entries.filterMap (matchVersion pkg)) with
  | [] => .error .indexError
  | v :: _ => .ok v

theorem semverSortRev_head_max (versions : List String) (v : String)
    (rest : List String) (h : semverSortRev versions = v :: rest) :
    v ∈ versions ∧ ∀ u ∈ versions, verKey u ≤ verKey v := by
  have hperm : List.Perm (semverSortRev versions) versions :=
    List.perm_insertionSort verGE versions
  have hsorted : List.Sorted verGE (semverSortRev versions) :=
    List.sorted_insertionSort verGE versions
  rw [h] at hperm hsorted
  constructor
  · exact hperm.mem_iff.mp (List.mem_cons_self v rest)
  · intro u hu
    rcases List.mem_cons.1 (hperm.mem_iff.mpr hu) with h1 | h1
    · exact h1 ▸ le_refl _
    · exact List.rel_of_sorted_cons hsorted u h1

/-- C1: for every non-pseudo component and every listing, the version
resolver returns the numerically greatest dotted version among the
entries matching the strict per-component pattern, comparing versions as
integer tuples with missing trailing components treated as zero, and
silently excluding non-conforming entries; on a non-empty candidate set
it always succeeds.  In particular the gcc listing
`["gcc-12.1.0/", "gcc-9.4.0/", "gcc-13.0.0-rc/"]` yields `"12.1.0"`:
the `-rc` entry fails the pattern. -/
theorem version_resolver_latest_greatest :
    (latestVersion .gcc ["gcc-12.1.0/", "gcc-9.4.0/", "gcc-13.0.0-rc/"]
      = .ok "12.1.0") ∧
    (∀ pkg entries v, pkg ≠ Component.all →
      latestVersion pkg entries = .ok v →
        v ∈ entries.filterMap (matchVersion pkg) ∧
        ∀ u ∈ entries.filterMap (matchVersion pkg), verKey u ≤ verKey v) ∧
    (∀ pkg entries, pkg ≠ Component.all →
      entries.filterMap (matchVersion pkg) ≠ [] →
      ∃ v, latestVersion pkg entries = .ok v) := by
  refine ⟨by decide, ?_, ?_⟩
  · intro pkg entries v _ hok
    unfold latestVersion at hok
    rcases hsort : semverSortRev (entries.filterMap (matchVersion pkg)) with
      _ | ⟨w, rest⟩
    · rw [hsort] at hok; exact absurd hok (by simp)
    · rw [hsort] at hok
      have hw : w = v := by
        simpa using hok
      subst hw
      exact semverSortRev_head_max _ _ _ hsort
  · intro pkg entries _ hne
    rcases hsort : semverSortRev (entries.filterMap (matchVersion pkg)) with
      _ | ⟨w, rest⟩
    · exfalso
      have hperm : List.Perm (semverSortRev (entries.filterMap (matchVersion pkg)))
          (entries.filterMap (matchVersion pkg)) :=
        List.perm_insertionSort verGE _
      rw [hsort] at hperm
      exact hne (hperm.nil_eq).symm
    · refine ⟨w, ?_⟩
      unfold latestVersion
      rw [hsort]

theorem version_resolver_witness :
    (Component.nasm ≠ Component.all) ∧
    ("2.15.1" ∈ ["2.14/", "2.15/", "2.15.1/"].filterMap (matchVersion .nasm) ∧
      ∀ u ∈ ["2.14/", "2.15/", "2.15.1/"].filterMap (matchVersion .nasm),
        verKey u ≤ verKey "2.15.1") := by
  refine ⟨by decide, ?_⟩
  exact (version_resolver_latest_greatest.2.1 Component.nasm
    ["2.14/", "2.15/", "2.15.1/"] "2.15.1" (by decide) (by decide))

/-- C7 counterexample: on a listing with no matching entry the resolver
raises `IndexError` from `versions[0]` on the empty sorted list; it does
not raise a dedicated `VersionResolutionError` — no such exception class
exists anywhere in the code. -/
theorem empty_candidates_cx :
    latestVersion .gcc ["README"] = .error .indexError ∧
    latestVersion .gcc ["README"] ≠ .error .versionResolutionError := by
  constructor
  · decide
  · decide

/-- C7 (amended): for every non-pseudo component and every listing in
which no entry matches the version pattern, the resolver fails — with the
`IndexError` arising from subscripting the empty candidate list — rather
than returning a value; the code defines no `VersionResolutionError`. -/
theorem empty_candidates_fail (pkg : Component) (entries : List String)
    (_hpkg : pkg ≠ Component.all)
    (hnone : entries.filterMap (matchVersion pkg) = []) :
    latestVersion pkg entries = .error .indexError := by
  unfold latestVersion
  rw [hnone]
  rfl

theorem empty_candidates_fail_witness :
    (Component.gcc ≠ Component.all) ∧
    (["README", "gcc-13.0.0-rc/"].filterMap (matchVersion .gcc) = []) ∧
    latestVersion .gcc ["README", "gcc-13.0.0-rc/"] = .error .indexError := by
  refine ⟨by decide, by decide, ?_⟩
  exact empty_candidates_fail Component.gcc ["README", "gcc-13.0.0-rc/"]
    (by decide) (by decide)

/-! ## C3: `save_env` (utils/__init__.py)

The ambient process state is the environment mapping (`os.environ`,
modelled as an insertion-ordered association list, like a Python dict)
and the current working directory.  `dict.update` is `updateEnv`; the
snapshot `dict(os.environ)` is the list value itself; restoring assigns
the snapshot back.  `os.chdir(path.resolve(strict=True))` fails with
`FileNotFoundError` when the target directory does not exist; the set of
existing directories is a fixed parameter (the body of the scope may
change environment and working directory, which the code does not guard
against and the cleanup overwrites anyway). -/

/-- `os.environ` as an insertion-ordered association list. -/
abbrev Env := List (String × String)

/-- `d[k] = v` on a Python dict: replace in place, else append. -/
def setVar : Env → String → String → Env
  | [], k, v => [(k, v)]
  | (k', v') :: rest, k, v =>
    if k' = k then (k', v) :: rest else (k', v') :: setVar rest k v

/-- `os.environ.update(env)`: iterate the override items in order. -/
def updateEnv (e : Env) (ov : Env) : Env :=
  ov.foldl (fun acc kv => setVar acc kv.1 kv.2) e

/-- Environment lookup (`os.environ[k]`, as a total `Option`). -/
def lookupVar (e : Env) (k : String) : Option String :=
  e.lookup k

/-- The ambient process state mutated by `save_env`. -/
structure ProcState where
  environ : Env
  cwd : String
deriving DecidableEq, Repr

/-- `save_env(env=envOv, path=pathOv)` wrapped around a body.
`dirs` is the set of existing directories; `body` is the code executed
inside the `with` block, returning either an exception or a value, plus
the ambient state it leaves behind.  The result is the propagated
outcome together with the ambient state after the `finally` cleanup,
which restores the working directory only when `path_changed` and the
environment only when `env_changed`, exactly as `_cleanup` does. -/
def saveEnvRun {α : Type} (dirs : List String) (st : ProcState)
    (envOv : Option Env) (pathOv : Option String)
    (body : ProcState → Except PyExc α × ProcState) :
    Except PyExc α × ProcState :=
  -- _setup, environment part
  let savedEnv := st.environ
  let envChanged := envOv.isSome
  let st1 : ProcState :=
    match envOv with
    | some ov => { st with environ := updateEnv st.environ ov }
    | none => st
  -- _setup, working-directory part
  match pathOv with
  | some p =>
    if p ∈ dirs then
      let savedCwd := st1.cwd
      let st2 := { st1 with cwd := p }
      let (res, st3) := body st2
      -- _cleanup with path_changed and (possibly) env_changed
      (res, { st3 with cwd := savedCwd,
                       environ := if envChanged then savedEnv else st3.environ })
    else
      -- `path.resolve(strict=True)` raised: body never runs, cleanup
      -- restores only what changed (the environment, when overridden)
      (.error .fileNotFound,
        { st1 with environ := if envChanged then savedEnv else st1.environ })
  | none =>
    let (res, st3) := body st1
    (res, { st3 with environ := if envChanged then savedEnv else st3.environ })

theorem lookupVar_setVar_ne (e : Env) (k k' v : String) (h : k ≠ k') :
    lookupVar (setVar e k' v) k = lookupVar e k := by
  have hb : (k == k') = false := beq_eq_false_iff_ne.mpr h
  induction e with
  | nil => simp [setVar, lookupVar, List.lookup, hb]
  | cons kv rest ih =>
    obtain ⟨k0, v0⟩ := kv
    by_cases h0 : k0 = k'
    · subst h0
      simp [setVar, lookupVar, List.lookup, hb]
    · simp only [setVar, if_neg h0, lookupVar, List.lookup]
      cases hbk : (k == k0) with
      | true => simp
      | false => simpa [lookupVar, List.lookup] using ih

theorem lookupVar_setVar_eq (e : Env) (k v : String) :
    lookupVar (setVar e k v) k = some v := by
  induction e with
  | nil => simp [setVar, lookupVar, List.lookup]
  | cons kv rest ih =>
    obtain ⟨k0, v0⟩ := kv
    by_cases h0 : k0 = k
    · subst h0; simp [setVar, lookupVar, List.lookup]
    · have hbk : (k == k0) = false := beq_eq_false_iff_ne.mpr (Ne.symm h0)
      simp only [setVar, if_neg h0, lookupVar, List.lookup, hbk]
      simpa [lookupVar, List.lookup] using ih

theorem lookupVar_updateEnv_not_mem (e ov : Env) (k : String)
    (h : k ∉ ov.map Prod.fst) :
    lookupVar (updateEnv e ov) k = lookupVar e k := by
  induction ov generalizing e with
  | nil => rfl
  | cons kv rest ih =>
    obtain ⟨k0, v0⟩ := kv
    have hk : k ≠ k0 := by
      intro hh; exact h (by simp [hh])
    have hrest : k ∉ rest.map Prod.fst := fun hh => h (by simp [hh])
    simp only [updateEnv, List.foldl_cons] at *
    rw [ih (setVar e k0 v0) hrest, lookupVar_setVar_ne e k k0 v0 hk]

theorem lookupVar_updateEnv_mem (e ov : Env) (k v : String)
    (hnd : (ov.map Prod.fst).Nodup) (h : (k, v) ∈ ov) :
    lookupVar (updateEnv e ov) k = some v := by
  induction ov generalizing e with
  | nil => simp at h
  | cons kv rest ih =>
    obtain ⟨k0, v0⟩ := kv
    simp only [List.map_cons, List.nodup_cons] at hnd
    rcases List.mem_cons.1 h with hh | hh
    · obtain ⟨hk, hv⟩ := Prod.mk.injEq .. ▸ hh
      subst hk; subst hv
      have hkrest : k ∉ rest.map Prod.fst := hnd.1
      simp only [updateEnv, List.foldl_cons]
      rw [show List.foldl (fun acc kv => setVar acc kv.1 kv.2) (setVar e k v) rest
            = updateEnv (setVar e k v) rest from rfl]
      rw [lookupVar_updateEnv_not_mem _ _ _ hkrest, lookupVar_setVar_eq]
    · simp only [updateEnv, List.foldl_cons]
      exact ih (setVar e k0 v0) hnd.2 hh

/-- C3: for every environment-override map and working directory,
leaving the `save_env` scope on any path (normal return, raised error,
or a cancellation signal, all captured by quantifying over the body's
outcome) leaves the ambient environment and working directory equal to
their values immediately before entry; and while the scope is active the
override is merged into (not substituted for) the prior environment:
keys outside the override keep their prior values and overridden keys
carry the override's values. -/
theorem save_env_restores {α : Type} (dirs : List String) (st : ProcState)
    (ov : Env) (p : String)
    (body : ProcState → Except PyExc α × ProcState) :
    ((saveEnvRun dirs st (some ov) (some p) body).2.environ = st.environ ∧
     (saveEnvRun dirs st (some ov) (some p) body).2.cwd = st.cwd) ∧
    (∀ k, k ∉ ov.map Prod.fst →
      lookupVar (updateEnv st.environ ov) k = lookupVar st.environ k) ∧
    (∀ k v, (ov.map Prod.fst).Nodup → (k, v) ∈ ov →
      lookupVar (updateEnv st.environ ov) k = some v) := by
  refine ⟨?_, fun k hk => lookupVar_updateEnv_not_mem _ _ _ hk,
    fun k v hnd hm => lookupVar_updateEnv_mem _ _ _ _ hnd hm⟩
  by_cases hp : p ∈ dirs
  · simp only [saveEnvRun, if_pos hp, Option.isSome_some]
    constructor <;> simp
  · simp only [saveEnvRun, if_neg hp, Option.isSome_some]
    constructor <;> simp

theorem save_env_restores_witness :
    let st : ProcState := ⟨[("HOME", "/root")], "/tmp"⟩
    let ov : Env := [("CC", "/usr/bin/gcc")]
    let body : ProcState → Except PyExc Unit × ProcState :=
      fun s => (.error .keyboardInterrupt, { s with cwd := "/elsewhere" })
    (saveEnvRun ["/work"] st (some ov) (some "/work") body).2.environ
        = st.environ ∧
    (saveEnvRun ["/work"] st (some ov) (some "/work") body).2.cwd = st.cwd ∧
    lookupVar (updateEnv st.environ ov) "HOME" = some "/root" ∧
    lookupVar (updateEnv st.environ ov) "CC" = some "/usr/bin/gcc" := by
  intro st ov body
  obtain ⟨⟨h1, h2⟩, h3, h4⟩ := save_env_restores ["/work"] st ov "/work" body
  exact ⟨h1, h2, h3 "HOME" (by decide), h4 "CC" "/usr/bin/gcc" (by decide) (by decide)⟩

/-! ## C8: `KernelToolchainBuilder.prepare` (toolchain/kernel/build.py)

The root layout is modelled by what `prepare` can observe and touch:
whether the root exists, the entry lists (name, is-directory) of the
`src` and `build` subdirectories (absent when the directory is missing),
the contents of the `install` directory, and the names of any other
entries directly under the root.  Running a leftover component's install
action (`_get_install_func(...)(self)`) performs no filesystem operation
of `prepare` itself — it drives an external `make install` — and is
recorded as an emitted event. -/

/-- What `prepare` can see of the toolchain root. -/
structure RootFs where
  rootExists : Bool
  src : Option (List (String × Bool))
  build : Option (List (String × Bool))
  install : Option (List String)
  othersUnder : List String
deriving DecidableEq, Repr

/-- `str.startswith(pre)`. -/
def pyStartsWith (s pre : String) : Bool :=
  pre.toList.isPrefixOf s.toList

/-- The fresh layout created when the root (or its build directory) is
missing: empty `src`/`build`/`install`, nothing else under the root. -/
def freshFs : RootFs :=
  ⟨true, some [], some [], some [], []⟩

/-- The default package set installed by the fresh-layout branch: every
member of `iter(ToolchainComponent)` except `LIMINE` and `ALL`, in
enumeration order. -/
def defaultPackages : List Component :=
  [.binutils, .nasm, .gcc, .gdb, .qemu]

/-- The loop `for pkg in self._packages: rm(build/<pkg>) if it exists`.
`shutil.rmtree` raises `NotADirectoryError` when the entry is a plain
file. -/
def removeRequested (pkgs : List Component) :
    List (String × Bool) → Except PyExc (List (String × Bool))
  | [] => .ok []
  | (n, isDir) :: rest =>
    if pkgs.any (fun p => p.name == n) then
      if isDir then removeRequested pkgs rest
      else .error .notADirectory
    else (removeRequested pkgs rest).map (fun l => (n, isDir) :: l)

/-- The loop over the remaining `build` entries that are directories:
`_get_install_func(ToolchainComponent(pkgdir.name))(self)`.  A name that
is no component value raises `ValueError`; the pseudo-member `ALL`
reaches `_get_install_func`'s unreachable arm. -/
def installEvents : List (String × Bool) → Except PyExc (List Component)
  | [] => .ok []
  | (n, isDir) :: rest =>
    if isDir then
      match Component.ofName n with
      | none => .error .valueError
      | some .all => .error .unreachableError
      | some c => (installEvents rest).map (fun evs => c :: evs)
    else installEvents rest

/-- `KernelToolchainBuilder.prepare`: missing root (or missing build
directory, which wipes the whole root) rebuilds the fresh layout and
resets the package set; otherwise wipe and recreate `install`, remove
the requested components' build subdirectories, run the install action
for the leftover build directories, and purge `src` entries whose names
start with a requested component name.  Returns the resulting layout,
the resulting package set and the emitted install events. -/
def prepare (pkgs : List Component) (fs : RootFs) :
    Except PyExc (RootFs × List Component × List Component) :=
  if ¬ fs.rootExists then .ok (freshFs, defaultPackages, [])
  else
    match fs.build with
    | none => .ok (freshFs, defaultPackages, [])
    | some bes =>
      match removeRequested pkgs bes with
      | .error e => .error e
      | .ok bes1 =>
        match installEvents bes1 with
        | .error e => .error e
        | .ok evs =>
          let src1 : Option (List (String × Bool)) :=
            match fs.src with
            | some ses =>
              some (ses.filter
                (fun e => !(pkgs.any (fun p => pyStartsWith e.1 p.name))))
            | none => some []
          .ok (⟨true, src1, some bes1, some [], fs.othersUnder⟩, pkgs, evs)

/-- C8 counterexample: a pre-existing root whose `build` subdirectory is
missing (e.g. after a partial clean) but whose `src` still holds data.
`prepare` then executes `rm(self.root_directory)` and rebuilds the
layout from scratch: the `src` entry and the unrelated entry under the
root are destroyed and the package set is reset — not the claimed
"wipe and recreate only the install directory, everything else
unchanged". -/
theorem prepare_missing_build_cx :
    prepare [Component.gcc]
        ⟨true, some [("notes.txt", false)], none, some ["old"], ["misc"]⟩
      = .ok (freshFs, defaultPackages, []) ∧
    freshFs.src ≠ some [("notes.txt", false)] ∧
    freshFs.othersUnder ≠ ["misc"] := by
  refine ⟨rfl, ?_, ?_⟩ <;> decide

theorem removeRequested_ok (pkgs : List Component) (bes : List (String × Bool))
    (h : ∀ e ∈ bes, pkgs.any (fun p => p.name == e.1) = true → e.2 = true) :
    removeRequested pkgs bes
      = .ok (bes.filter (fun e => !(pkgs.any (fun p => p.name == e.1)))) := by
  induction bes with
  | nil => rfl
  | cons e rest ih =>
    obtain ⟨n, isDir⟩ := e
    have hrest := ih (fun x hx hax => h x (List.mem_cons_of_mem _ hx) hax)
    by_cases ha : pkgs.any (fun p => p.name == n) = true
    · have hd : isDir = true := h (n, isDir) (List.mem_cons_self _ _) ha
      subst hd
      simp [removeRequested, ha, hrest]
    · simp [removeRequested, ha, hrest, Except.map]

theorem installEvents_ok (bes : List (String × Bool))
    (h : ∀ e ∈ bes, e.2 = true →
      ∃ c, Component.ofName e.1 = some c ∧ c ≠ Component.all) :
    installEvents bes
      = .ok ((bes.filter (fun e => e.2)).filterMap
          (fun e => Component.ofName e.1)) := by
  induction bes with
  | nil => rfl
  | cons e rest ih =>
    obtain ⟨n, isDir⟩ := e
    have hrest := ih (fun x hx hd => h x (List.mem_cons_of_mem _ hx) hd)
    cases isDir with
    | false => simpa [installEvents] using hrest
    | true =>
      obtain ⟨c, hc, hcall⟩ := h (n, true) (List.mem_cons_self _ _) rfl
      cases c with
      | all => exact absurd rfl hcall
      | binutils => simp [installEvents, hc, hrest, Except.map]
      | nasm => simp [installEvents, hc, hrest, Except.map]
      | gcc => simp [installEvents, hc, hrest, Except.map]
      | gdb => simp [installEvents, hc, hrest, Except.map]
      | qemu => simp [installEvents, hc, hrest, Except.map]
      | limine => simp [installEvents, hc, hrest, Except.map]

/-- C8 (amended): for every pre-existing root layout whose `build`
subdirectory exists (when it is missing the entire root is wiped and
rebuilt fresh, as the counterexample shows), with the requested-name
build entries being directories and the leftover build directories
named after real non-pseudo components: `prepare` recreates the install
directory empty, removes exactly the build subdirectories of requested
components, emits one install action per leftover build directory,
purges exactly the `src` entries whose names start with a requested
component name, and leaves the other root entries, the remaining
`src`/`build` entries and the requested package set unchanged. -/
theorem prepare_frame (pkgs : List Component) (ses bes : List (String × Bool))
    (inst : Option (List String)) (oth : List String)
    (hreq : ∀ e ∈ bes, pkgs.any (fun p => p.name == e.1) = true → e.2 = true)
    (hleft : ∀ e ∈ bes, e.2 = true →
      ∃ c, Component.ofName e.1 = some c ∧ c ≠ Component.all) :
    prepare pkgs ⟨true, some ses, some bes, inst, oth⟩
      = .ok
        (⟨true,
          some (ses.filter
            (fun e => !(pkgs.any (fun p => pyStartsWith e.1 p.name)))),
          some (bes.filter (fun e => !(pkgs.any (fun p => p.name == e.1)))),
          some [], oth⟩,
         pkgs,
         ((bes.filter (fun e => !(pkgs.any (fun p => p.name == e.1)))).filter
             (fun e => e.2)).filterMap (fun e => Component.ofName e.1)) := by
  have h1 := removeRequested_ok pkgs bes hreq
  have h2 := installEvents_ok
    (bes.filter (fun e => !(pkgs.any (fun p => p.name == e.1))))
    (fun e he hd => hleft e (List.mem_filter.mp he).1 hd)
  simp only [prepare, h1, h2]
  rfl

theorem prepare_frame_witness :
    prepare [Component.gcc]
        ⟨true,
         some [("gcc-12.1.0", true), ("nasm-2.15", true), ("README", false)],
         some [("gcc", true), ("binutils", true), ("notes.txt", false)],
         some ["bin"], ["misc"]⟩
      = .ok
        (⟨true, some [("nasm-2.15", true), ("README", false)],
          some [("binutils", true), ("notes.txt", false)], some [], ["misc"]⟩,
         [Component.gcc], [Component.binutils]) := by
  have h := prepare_frame [Component.gcc]
    [("gcc-12.1.0", true), ("nasm-2.15", true), ("README", false)]
    [("gcc", true), ("binutils", true), ("notes.txt", false)]
    (some ["bin"]) ["misc"]
    (by decide) (by decide)
  simpa using h

/-! ## C2 / C5: `DirectorySnapshot` diff and `FileTracker` (utils/filetracker.py)

Filesystem paths (`str(fsobj)`) are modelled as lists of path segments,
so `str(dir) + "/" + name` becomes `dir ++ [name]`.  `_FsNotDir` carries
`path`, `st_mode`, `st_size` and the `xxh128` content digest (an opaque
number here); `_FsDepth` carries the directory path and the two child
dictionaries, modelled as insertion-ordered association lists keyed by
the full child path.  `_compare_depth` iterates Python sets; the model
fixes a deterministic enumeration order of the same key sets (the
claims proved below are order-insensitive). -/

/-- A filesystem path as its list of segments. -/
abbrev SegPath := List String

/-- `_FsNotDir`: a non-directory entry with mode, size and content
hash. -/
structure FsNotDir where
  path : SegPath
  mode : Nat
  size : Nat
  checksum : Nat
deriving DecidableEq, Repr

/-- `_FsDepth`: one directory level with its subdirectory and
non-directory children, keyed by full path. -/
inductive FsDepth where
  | mk (path : SegPath) (dirs : List (SegPath × FsDepth))
      (others : List (SegPath × FsNotDir))

def FsDepth.path : FsDepth → SegPath
  | .mk p _ _ => p

def FsDepth.dirs : FsDepth → List (SegPath × FsDepth)
  | .mk _ d _ => d

def FsDepth.others : FsDepth → List (SegPath × FsNotDir)
  | .mk _ _ o => o

/-- `_FsObj = _FsDir | _FsNotDir`. -/
inductive FsObj where
  | dir (d : FsDepth)
  | other (f : FsNotDir)

def FsObj.path : FsObj → SegPath
  | .dir d => d.path
  | .other f => f.path

/-- `_FsModification`. -/
abbrev FsMod := Option FsObj × Option FsObj

/-- `set(level.others) | set(level.dirs)`: the key set of one level,
as a duplicate-free list. -/
def keysOf (t : FsDepth) : List SegPath :=
  (t.others.map Prod.fst ++ t.dirs.map Prod.fst).dedup

/-- Entry lookup with the same precedence as the code
(`if o in old.others: ... else: old.dirs[o]`). -/
def entryOf (t : FsDepth) (k : SegPath) : Option FsObj :=
  match t.others.lookup k with
  | some o => some (.other o)
  | none =>
    match t.dirs.lookup k with
    | some d => some (.dir d)
    | none => none

theorem lookup_mem {α β : Type} [BEq α] [LawfulBEq α] {l : List (α × β)}
    {k : α} {v : β} (h : l.lookup k = some v) : (k, v) ∈ l := by
  induction l with
  | nil => simp [List.lookup] at h
  | cons kv rest ih =>
    obtain ⟨k0, v0⟩ := kv
    simp only [List.lookup] at h
    cases hbk : (k == k0) with
    | true =>
      rw [hbk] at h
      have hk : k = k0 := eq_of_beq hbk
      have hv : v0 = v := by simpa using h
      subst hk; subst hv
      exact List.mem_cons_self _ _
    | false =>
      rw [hbk] at h
      exact List.mem_cons_of_mem _ (ih h)

theorem sizeOf_lookup_dirs {t : FsDepth} {k : SegPath} {v : FsDepth}
    (h : t.dirs.lookup k = some v) : sizeOf v < sizeOf t := by
  obtain ⟨p, ds, os⟩ := t
  have hm : (k, v) ∈ ds := lookup_mem (by simpa [FsDepth.dirs] using h)
  have h1 : sizeOf (k, v) < sizeOf ds := List.sizeOf_lt_of_mem hm
  have h2 : sizeOf v < sizeOf (k, v) := by
    simp only [Prod.mk.sizeOf_spec]
    omega
  simp only [FsDepth.mk.sizeOf_spec]
  omega

mutual

/-- `_compare_depth(old, new)`: removed entries, added entries, then the
per-key comparison of the keys present on both sides. -/
def compareDepth (old new : FsDepth) : List FsMod :=
  ((keysOf old).filter (fun k => decide (k ∉ keysOf new))).map
      (fun k => ((entryOf old k, none) : FsMod))
    ++ ((keysOf new).filter (fun k => decide (k ∉ keysOf old))).map
      (fun k => ((none, entryOf new k) : FsMod))
    ++ compareBoth old new ((keysOf old).filter (fun k => decide (k ∈ keysOf new)))
termination_by (sizeOf old, 2, 0)
decreasing_by
  all_goals simp_wf
  exact Prod.Lex.right _ (Prod.Lex.left _ _ (by omega))

/-- The `for b in in_both` loop of `_compare_depth`. -/
def compareBoth (old new : FsDepth) : List SegPath → List FsMod
  | [] => []
  | b :: bs => bothEvents old new b ++ compareBoth old new bs
termination_by l => (sizeOf old, 1, sizeOf l)
decreasing_by
  all_goals simp_wf
  · exact Prod.Lex.right _ (Prod.Lex.left _ _ (by omega))
  · exact Prod.Lex.right _ (Prod.Lex.right _ (by omega))

/-- The body executed for one key of `in_both`: a changed non-directory
pair, a file/directory kind change, or the recursion into a directory
present on both sides.  The `none` fallbacks mark dictionary lookups
that would be `KeyError`s in Python and are unreachable for keys drawn
from the corresponding key sets. -/
def bothEvents (old new : FsDepth) (b : SegPath) : List FsMod :=
  match old.others.lookup b with
  | some oobj =>
    match new.others.lookup b with
    | some nobj =>
      if oobj ≠ nobj then [(some (.other oobj), some (.other nobj))] else []
    | none =>
      match new.dirs.lookup b with
      | some nd => [(some (.other oobj), some (.dir nd))]
      | none => []
  | none =>
    match hlk : old.dirs.lookup b with
    | some od =>
      match new.dirs.lookup b with
      | some nd => compareDepth od nd
      | none =>
        match new.others.lookup b with
        | some no => [(some (.dir od), some (.other no))]
        | none => []
    | none => []
termination_by (sizeOf old, 0, 0)
decreasing_by
  all_goals simp_wf
  exact Prod.Lex.left _ _ (sizeOf_lookup_dirs hlk)

end

theorem compareBoth_nil (old new : FsDepth) : compareBoth old new [] = [] := by
  unfold compareBoth
  rfl

theorem compareBoth_cons (old new : FsDepth) (b : SegPath) (bs : List SegPath) :
    compareBoth old new (b :: bs)
      = bothEvents old new b ++ compareBoth old new bs := by
  rw [compareBoth.eq_def]

theorem compareDepth_eq (old new : FsDepth) :
    compareDepth old new
      = ((keysOf old).filter (fun k => decide (k ∉ keysOf new))).map
          (fun k => ((entryOf old k, none) : FsMod))
        ++ ((keysOf new).filter (fun k => decide (k ∉ keysOf old))).map
          (fun k => ((none, entryOf new k) : FsMod))
        ++ compareBoth old new
            ((keysOf old).filter (fun k => decide (k ∈ keysOf new))) := by
  rw [compareDepth.eq_def]

theorem filter_not_mem_self (S : List SegPath) :
    S.filter (fun k => decide (k ∉ S)) = [] := by
  induction S with
  | nil => rfl
  | cons a l _ =>
    apply List.filter_eq_nil_iff.mpr
    intro k hk
    simp only [decide_not, Bool.not_eq_true', decide_eq_false_iff_not, not_not]
    exact hk

theorem bothEvents_self (d : FsDepth) (b : SegPath)
    (ih : ∀ sub : FsDepth, sizeOf sub < sizeOf d → compareDepth sub sub = []) :
    bothEvents d d b = [] := by
  rw [bothEvents.eq_def]
  split
  · rename_i oobj heq
    split
    · rename_i nobj heq2
      obtain rfl : oobj = nobj := by simpa using heq2
      simp
    · rename_i heq2
      simp at heq2
  · rename_i heq
    split
    · rename_i od heq2
      split
      · rename_i nd heq3
        rw [heq2] at heq3
        obtain rfl : od = nd := by simpa using heq3
        exact ih od (sizeOf_lookup_dirs heq2)
      · rfl
    · rfl

/-- C5 helper: the self-diff of any snapshot level is empty. -/
theorem compareDepth_self (d : FsDepth) : compareDepth d d = [] := by
  suffices H : ∀ (n : Nat) (t : FsDepth), sizeOf t ≤ n → compareDepth t t = [] from
    H (sizeOf d) d le_rfl
  intro n
  induction n with
  | zero =>
    intro t h
    exact absurd h (by cases t; simp only [FsDepth.mk.sizeOf_spec]; omega)
  | succ n ih =>
    intro t hle
    have hboth : ∀ l : List SegPath, compareBoth t t l = [] := by
      intro l
      induction l with
      | nil => exact compareBoth_nil t t
      | cons b bs ihl =>
        rw [compareBoth_cons, ihl, List.append_nil]
        exact bothEvents_self t b (fun sub hs => ih sub (by omega))
    rw [compareDepth_eq, filter_not_mem_self, hboth]
    simp

/-! ### C5: exactness of the snapshot diff

Wellformedness of a snapshot as produced by `_FileList._build`: within a
level the keys are distinct, every stored entry records its own key as
its path, and every key is the level's path extended by one name (the
`iterdir` child name, which contains no separator). -/

/-- The path reported for one diff event (the event's old side when
present, otherwise its new side). -/
def eventPath : FsMod → SegPath
  | (some o, _) => o.path
  | (none, some o) => o.path
  | (none, none) => []

/-- How many events of the diff carry exactly the path `n`. -/
def countAt (old new : FsDepth) (n : SegPath) : Nat :=
  (compareDepth old new).countP (fun e => eventPath e == n)

/-- The diff events whose path lies at or below `n`. -/
def eventsUnder (old new : FsDepth) (n : SegPath) : List FsMod :=
  (compareDepth old new).filter (fun e => n.isPrefixOf (eventPath e))

/-- Snapshot levels as produced by `_FileList._build`. -/
inductive Wf : FsDepth → Prop where
  | intro (p : SegPath) (ds : List (SegPath × FsDepth))
      (os : List (SegPath × FsNotDir))
      (hnd : (os.map Prod.fst ++ ds.map Prod.fst).Nodup)
      (hoPath : ∀ e ∈ os, e.2.path = e.1)
      (hdPath : ∀ e ∈ ds, e.2.path = e.1)
      (hoKey : ∀ e ∈ os, ∃ m : String, e.1 = p ++ [m])
      (hdKey : ∀ e ∈ ds, ∃ m : String, e.1 = p ++ [m])
      (hsub : ∀ e ∈ ds, Wf e.2) :
      Wf (.mk p ds os)

theorem Wf.nodupKeys {t : FsDepth} (h : Wf t) :
    (t.others.map Prod.fst ++ t.dirs.map Prod.fst).Nodup := by
  cases h with
  | intro p ds os hnd hoPath hdPath hoKey hdKey hsub => exact hnd

theorem Wf.otherPath {t : FsDepth} (h : Wf t) :
    ∀ e ∈ t.others, e.2.path = e.1 := by
  cases h with
  | intro p ds os hnd hoPath hdPath hoKey hdKey hsub => exact hoPath

theorem Wf.dirPath {t : FsDepth} (h : Wf t) :
    ∀ e ∈ t.dirs, e.2.path = e.1 := by
  cases h with
  | intro p ds os hnd hoPath hdPath hoKey hdKey hsub => exact hdPath

theorem Wf.otherKey {t : FsDepth} (h : Wf t) :
    ∀ e ∈ t.others, ∃ m : String, e.1 = t.path ++ [m] := by
  cases h with
  | intro p ds os hnd hoPath hdPath hoKey hdKey hsub => exact hoKey

theorem Wf.dirKey {t : FsDepth} (h : Wf t) :
    ∀ e ∈ t.dirs, ∃ m : String, e.1 = t.path ++ [m] := by
  cases h with
  | intro p ds os hnd hoPath hdPath hoKey hdKey hsub => exact hdKey

theorem Wf.sub {t : FsDepth} (h : Wf t) : ∀ e ∈ t.dirs, Wf e.2 := by
  cases h with
  | intro p ds os hnd hoPath hdPath hoKey hdKey hsub => exact hsub

theorem lookup_eq_none_of_not_mem_keys {α β : Type} [BEq α] [LawfulBEq α]
    {l : List (α × β)} {k : α} (h : k ∉ l.map Prod.fst) : l.lookup k = none := by
  induction l with
  | nil => rfl
  | cons kv rest ih =>
    obtain ⟨k0, v0⟩ := kv
    have hk : k ≠ k0 := fun hh => h (by simp [hh])
    have hrest : k ∉ rest.map Prod.fst := fun hh => h (by simp [hh])
    simp only [List.lookup, beq_eq_false_iff_ne.mpr hk]
    exact ih hrest

theorem lookup_isSome_of_mem_keys {α β : Type} [BEq α] [LawfulBEq α]
    {l : List (α × β)} {k : α} (h : k ∈ l.map Prod.fst) :
    ∃ v, l.lookup k = some v := by
  induction l with
  | nil => simp at h
  | cons kv rest ih =>
    obtain ⟨k0, v0⟩ := kv
    by_cases hk : k = k0
    · subst hk
      exact ⟨v0, by simp [List.lookup]⟩
    · have hrest : k ∈ rest.map Prod.fst := by
        simp only [List.map_cons, List.mem_cons] at h
        rcases h with hh | hh
        · exact absurd hh hk
        · exact hh
      obtain ⟨v, hv⟩ := ih hrest
      exact ⟨v, by simp only [List.lookup, beq_eq_false_iff_ne.mpr hk]; exact hv⟩

theorem mem_keys_of_lookup {α β : Type} [BEq α] [LawfulBEq α]
    {l : List (α × β)} {k : α} {v : β} (h : l.lookup k = some v) :
    k ∈ l.map Prod.fst :=
  List.mem_map.mpr ⟨(k, v), lookup_mem h, rfl⟩

theorem mem_keysOf_iff {t : FsDepth} {k : SegPath} :
    k ∈ keysOf t ↔ k ∈ t.others.map Prod.fst ∨ k ∈ t.dirs.map Prod.fst := by
  unfold keysOf
  rw [List.mem_dedup, List.mem_append]

/-- With distinct keys, an `others` key never resolves through `dirs`
and vice versa. -/
theorem others_dirs_disjoint {t : FsDepth} (h : Wf t) {k : SegPath}
    (hk : k ∈ t.dirs.map Prod.fst) : t.others.lookup k = none := by
  apply lookup_eq_none_of_not_mem_keys
  intro hmem
  have hnd := h.nodupKeys
  exact (List.disjoint_of_nodup_append hnd) hmem hk

theorem entryOf_some_path {t : FsDepth} (h : Wf t) {k : SegPath}
    (hk : k ∈ keysOf t) : ∃ o, entryOf t k = some o ∧ o.path = k := by
  rcases mem_keysOf_iff.mp hk with hko | hkd
  · obtain ⟨o, ho⟩ := lookup_isSome_of_mem_keys hko
    refine ⟨.other o, by simp [entryOf, ho], ?_⟩
    have := h.otherPath (k, o) (lookup_mem ho)
    simpa [FsObj.path] using this
  · have hno : t.others.lookup k = none := others_dirs_disjoint h hkd
    obtain ⟨d, hd⟩ := lookup_isSome_of_mem_keys hkd
    refine ⟨.dir d, by simp [entryOf, hno, hd], ?_⟩
    have := h.dirPath (k, d) (lookup_mem hd)
    simpa [FsObj.path] using this

theorem keyShape {t : FsDepth} (h : Wf t) {k : SegPath} (hk : k ∈ keysOf t) :
    ∃ m : String, k = t.path ++ [m] := by
  rcases mem_keysOf_iff.mp hk with hko | hkd
  · obtain ⟨⟨k1, o⟩, hmem, hfst⟩ := List.mem_map.1 hko
    subst hfst
    exact h.otherKey _ hmem
  · obtain ⟨⟨k1, d⟩, hmem, hfst⟩ := List.mem_map.1 hkd
    subst hfst
    exact h.dirKey _ hmem

theorem others_lookup_path {t : FsDepth} (h : Wf t) {k : SegPath} {o : FsNotDir}
    (hl : t.others.lookup k = some o) : o.path = k :=
  h.otherPath (k, o) (lookup_mem hl)

theorem dirs_lookup_path {t : FsDepth} (h : Wf t) {k : SegPath} {d : FsDepth}
    (hl : t.dirs.lookup k = some d) : d.path = k :=
  h.dirPath (k, d) (lookup_mem hl)

theorem dirs_lookup_wf {t : FsDepth} (h : Wf t) {k : SegPath} {d : FsDepth}
    (hl : t.dirs.lookup k = some d) : Wf d :=
  h.sub (k, d) (lookup_mem hl)

theorem isPrefixOf_append_cons (p : SegPath) (a b : String) (r : SegPath) :
    (p ++ [a]).isPrefixOf (p ++ b :: r) = (a == b) := by
  induction p with
  | nil => simp [List.isPrefixOf]
  | cons x xs ih => simpa [List.isPrefixOf] using ih

theorem isPrefixOf_append_self (p r : SegPath) :
    p.isPrefixOf (p ++ r) = true := by
  induction p with
  | nil => simp [List.isPrefixOf]
  | cons x xs ih => simpa [List.isPrefixOf] using ih

theorem keysOf_cases {t : FsDepth} (h : Wf t) {k : SegPath}
    (hk : k ∈ keysOf t) :
    (∃ o, t.others.lookup k = some o ∧ t.dirs.lookup k = none) ∨
    (t.others.lookup k = none ∧ ∃ d, t.dirs.lookup k = some d) := by
  rcases mem_keysOf_iff.mp hk with hko | hkd
  · left
    obtain ⟨o, ho⟩ := lookup_isSome_of_mem_keys hko
    refine ⟨o, ho, lookup_eq_none_of_not_mem_keys ?_⟩
    intro hmem
    exact (List.disjoint_of_nodup_append h.nodupKeys) hko hmem
  · right
    obtain ⟨d, hd⟩ := lookup_isSome_of_mem_keys hkd
    exact ⟨others_dirs_disjoint h hkd, d, hd⟩

theorem bothEvents_other_other {old new : FsDepth} {b : SegPath}
    {oobj nobj : FsNotDir}
    (h1 : old.others.lookup b = some oobj)
    (h2 : new.others.lookup b = some nobj) :
    bothEvents old new b
      = if oobj = nobj then []
        else [(some (.other oobj), some (.other nobj))] := by
  rw [bothEvents.eq_def, h1, h2]
  by_cases h : oobj = nobj <;> simp [h]

theorem bothEvents_other_dir {old new : FsDepth} {b : SegPath}
    {oobj : FsNotDir} {nd : FsDepth}
    (h1 : old.others.lookup b = some oobj)
    (h2 : new.others.lookup b = none)
    (h3 : new.dirs.lookup b = some nd) :
    bothEvents old new b = [(some (.other oobj), some (.dir nd))] := by
  rw [bothEvents.eq_def, h1, h2, h3]

theorem bothEvents_dir_other {old new : FsDepth} {b : SegPath}
    {od : FsDepth} {no : FsNotDir}
    (h1 : old.others.lookup b = none)
    (h2 : old.dirs.lookup b = some od)
    (h3 : new.dirs.lookup b = none)
    (h4 : new.others.lookup b = some no) :
    bothEvents old new b = [(some (.dir od), some (.other no))] := by
  rw [bothEvents.eq_def, h1]
  split
  · rename_i heq2
    simp at heq2
  · split
    · rename_i od2 heq2
      rw [h2] at heq2
      obtain rfl : od = od2 := by simpa using heq2
      rw [h3, h4]
    · rename_i heq2
      rw [h2] at heq2
      simp at heq2

theorem bothEvents_dir_dir {old new : FsDepth} {b : SegPath}
    {od nd : FsDepth}
    (h1 : old.others.lookup b = none)
    (h2 : old.dirs.lookup b = some od)
    (h3 : new.dirs.lookup b = some nd) :
    bothEvents old new b = compareDepth od nd := by
  rw [bothEvents.eq_def, h1]
  split
  · rename_i heq2
    simp at heq2
  · split
    · rename_i od2 heq2
      rw [h2] at heq2
      obtain rfl : od = od2 := by simpa using heq2
      rw [h3]
    · rename_i heq2
      rw [h2] at heq2
      simp at heq2

/-- Every event path of a wellformed diff strictly extends the common
root path by at least one segment. -/
theorem eventPath_extends :
    ∀ (N : Nat) (old new : FsDepth) (p : SegPath), sizeOf old ≤ N →
      Wf old → Wf new → old.path = p → new.path = p →
      ∀ e ∈ compareDepth old new,
        ∃ (m : String) (r : SegPath), eventPath e = p ++ m :: r := by
  intro N
  induction N with
  | zero =>
    intro old new p hle
    exact absurd hle (by cases old; simp only [FsDepth.mk.sizeOf_spec]; omega)
  | succ N ih =>
    intro old new p hle hwo hwn hpo hpn e he
    rw [compareDepth_eq] at he
    rcases List.mem_append.1 he with he12 | heB
    · rcases List.mem_append.1 he12 with he1 | he2
      · obtain ⟨k, hk, hek⟩ := List.mem_map.1 he1
        have hkeys : k ∈ keysOf old := (List.mem_filter.1 hk).1
        obtain ⟨o, ho, hop⟩ := entryOf_some_path hwo hkeys
        obtain ⟨m, hm⟩ := keyShape hwo hkeys
        refine ⟨m, [], ?_⟩
        rw [← hek]
        simp only [eventPath, ho]
        rw [hop, hm, hpo]
      · obtain ⟨k, hk, hek⟩ := List.mem_map.1 he2
        have hkeys : k ∈ keysOf new := (List.mem_filter.1 hk).1
        obtain ⟨o, ho, hop⟩ := entryOf_some_path hwn hkeys
        obtain ⟨m, hm⟩ := keyShape hwn hkeys
        refine ⟨m, [], ?_⟩
        rw [← hek]
        simp only [eventPath, ho]
        rw [hop, hm, hpn]
    · have hsub : ∀ (l : List SegPath),
          (∀ b ∈ l, b ∈ keysOf old ∧ b ∈ keysOf new) →
          ∀ e ∈ compareBoth old new l,
            ∃ (m : String) (r : SegPath), eventPath e = p ++ m :: r := by
        intro l
        induction l with
        | nil =>
          intro _ e he
          rw [compareBoth_nil] at he
          simp at he
        | cons b bs ihl =>
          intro hl e he
          rw [compareBoth_cons] at he
          rcases List.mem_append.1 he with heb | hebs
          · obtain ⟨hbo, hbn⟩ := hl b (List.mem_cons_self _ _)
            obtain ⟨mb, hmb⟩ := keyShape hwo hbo
            rw [hpo] at hmb
            rcases keysOf_cases hwo hbo with ⟨oobj, ho1, ho2⟩ | ⟨ho1, od, ho2⟩
            · rcases keysOf_cases hwn hbn with ⟨nobj, hn1, hn2⟩ | ⟨hn1, nd, hn2⟩
              · rw [bothEvents_other_other ho1 hn1] at heb
                by_cases hob : oobj = nobj
                · simp [hob] at heb
                · simp only [if_neg hob, List.mem_singleton] at heb
                  subst heb
                  exact ⟨mb, [], by
                    simp only [eventPath, FsObj.path]
                    rw [others_lookup_path hwo ho1, hmb]⟩
              · rw [bothEvents_other_dir ho1 hn1 hn2] at heb
                simp only [List.mem_singleton] at heb
                subst heb
                exact ⟨mb, [], by
                  simp only [eventPath, FsObj.path]
                  rw [others_lookup_path hwo ho1, hmb]⟩
            · rcases keysOf_cases hwn hbn with ⟨nobj, hn1, hn2⟩ | ⟨hn1, nd, hn2⟩
              · rw [bothEvents_dir_other ho1 ho2 hn2 hn1] at heb
                simp only [List.mem_singleton] at heb
                subst heb
                exact ⟨mb, [], by
                  simp only [eventPath, FsObj.path]
                  rw [dirs_lookup_path hwo ho2, hmb]⟩
              · rw [bothEvents_dir_dir ho1 ho2 hn2] at heb
                have hwod : Wf od := dirs_lookup_wf hwo ho2
                have hwnd : Wf nd := dirs_lookup_wf hwn hn2
                have hpod : od.path = b := dirs_lookup_path hwo ho2
                have hpnd : nd.path = b := dirs_lookup_path hwn hn2
                have hszd : sizeOf od ≤ N := by
                  have := sizeOf_lookup_dirs ho2
                  omega
                obtain ⟨m2, r2, hm2⟩ :=
                  ih od nd b hszd hwod hwnd hpod hpnd e heb
                refine ⟨mb, m2 :: r2, ?_⟩
                rw [hm2, hmb]
                simp
          · exact ihl (fun x hx => hl x (List.mem_cons_of_mem _ hx)) e hebs
      refine hsub _ ?_ e heB
      intro b hb
      have h1 := (List.mem_filter.1 hb).1
      have h2 := (List.mem_filter.1 hb).2
      exact ⟨h1, by simpa using h2⟩

theorem countP_congr_mem {α : Type} {p q : α → Bool} {l : List α}
    (h : ∀ a ∈ l, p a = q a) : l.countP p = l.countP q := by
  induction l with
  | nil => rfl
  | cons a t ih =>
    rw [List.countP_cons, List.countP_cons, h a (List.mem_cons_self _ _),
      ih (fun x hx => h x (List.mem_cons_of_mem _ hx))]

theorem bothEvents_path_shape {old new : FsDepth} {p b : SegPath}
    (hwo : Wf old) (hwn : Wf new) (hpo : old.path = p) (hpn : new.path = p)
    (hbo : b ∈ keysOf old) (hbn : b ∈ keysOf new) :
    ∀ e ∈ bothEvents old new b,
      eventPath e = b ∨ ∃ (m : String) (r : SegPath), eventPath e = b ++ m :: r := by
  intro e he
  rcases keysOf_cases hwo hbo with ⟨oobj, ho1, ho2⟩ | ⟨ho1, od, ho2⟩
  · rcases keysOf_cases hwn hbn with ⟨nobj, hn1, hn2⟩ | ⟨hn1, nd, hn2⟩
    · rw [bothEvents_other_other ho1 hn1] at he
      by_cases hob : oobj = nobj
      · simp [hob] at he
      · simp only [if_neg hob, List.mem_singleton] at he
        subst he
        left
        simp only [eventPath, FsObj.path]
        exact others_lookup_path hwo ho1
    · rw [bothEvents_other_dir ho1 hn1 hn2] at he
      simp only [List.mem_singleton] at he
      subst he
      left
      simp only [eventPath, FsObj.path]
      exact others_lookup_path hwo ho1
  · rcases keysOf_cases hwn hbn with ⟨nobj, hn1, hn2⟩ | ⟨hn1, nd, hn2⟩
    · rw [bothEvents_dir_other ho1 ho2 hn2 hn1] at he
      simp only [List.mem_singleton] at he
      subst he
      left
      simp only [eventPath, FsObj.path]
      exact dirs_lookup_path hwo ho2
    · rw [bothEvents_dir_dir ho1 ho2 hn2] at he
      right
      exact eventPath_extends (sizeOf od) od nd b le_rfl
        (dirs_lookup_wf hwo ho2) (dirs_lookup_wf hwn hn2)
        (dirs_lookup_path hwo ho2) (dirs_lookup_path hwn hn2) e he

theorem countP_bothEvents_ne {old new : FsDepth} {p b n : SegPath} {mn : String}
    (hwo : Wf old) (hwn : Wf new) (hpo : old.path = p) (hpn : new.path = p)
    (hbo : b ∈ keysOf old) (hbn : b ∈ keysOf new)
    (hn : n = p ++ [mn]) (hne : b ≠ n) :
    (bothEvents old new b).countP (fun e => eventPath e == n) = 0 := by
  obtain ⟨mb, hmb⟩ := keyShape hwo hbo
  rw [hpo] at hmb
  apply List.countP_eq_zero.mpr
  intro e he hpred
  have hpath : eventPath e = n := by simpa using hpred
  rcases bothEvents_path_shape hwo hwn hpo hpn hbo hbn e he with hsh | ⟨m, r, hsh⟩
  · exact hne (hsh ▸ hpath)
  · rw [hsh, hn, hmb] at hpath
    have hlen := congrArg List.length hpath
    simp [List.length_append] at hlen

theorem countP_compareBoth_not_mem {old new : FsDepth} {p n : SegPath}
    {mn : String}
    (hwo : Wf old) (hwn : Wf new) (hpo : old.path = p) (hpn : new.path = p)
    (hn : n = p ++ [mn]) :
    ∀ (l : List SegPath), (∀ b ∈ l, b ∈ keysOf old ∧ b ∈ keysOf new) →
      n ∉ l →
      (compareBoth old new l).countP (fun e => eventPath e == n) = 0 := by
  intro l
  induction l with
  | nil =>
    intro _ _
    rw [compareBoth_nil]
    rfl
  | cons b bs ih =>
    intro hl hnl
    obtain ⟨hbo, hbn⟩ := hl b (List.mem_cons_self _ _)
    have hne : b ≠ n := fun hh => hnl (hh ▸ List.mem_cons_self _ _)
    rw [compareBoth_cons, List.countP_append,
      countP_bothEvents_ne hwo hwn hpo hpn hbo hbn hn hne]
    simpa using ih (fun x hx => hl x (List.mem_cons_of_mem _ hx))
      (fun hh => hnl (List.mem_cons_of_mem _ hh))

theorem countP_compareBoth_mem {old new : FsDepth} {p n : SegPath}
    {mn : String}
    (hwo : Wf old) (hwn : Wf new) (hpo : old.path = p) (hpn : new.path = p)
    (hn : n = p ++ [mn]) :
    ∀ (l : List SegPath), (∀ b ∈ l, b ∈ keysOf old ∧ b ∈ keysOf new) →
      l.Nodup → n ∈ l →
      (compareBoth old new l).countP (fun e => eventPath e == n)
        = (bothEvents old new n).countP (fun e => eventPath e == n) := by
  intro l
  induction l with
  | nil =>
    intro _ _ hmem
    simp at hmem
  | cons b bs ih =>
    intro hl hnd hmem
    rw [compareBoth_cons, List.countP_append]
    by_cases hb : b = n
    · subst hb
      have hnbs : b ∉ bs := (List.nodup_cons.1 hnd).1
      rw [countP_compareBoth_not_mem hwo hwn hpo hpn hn bs
        (fun x hx => hl x (List.mem_cons_of_mem _ hx)) hnbs]
      omega
    · obtain ⟨hbo, hbn⟩ := hl b (List.mem_cons_self _ _)
      rw [countP_bothEvents_ne hwo hwn hpo hpn hbo hbn hn hb]
      have hmem2 : n ∈ bs := by
        rcases List.mem_cons.1 hmem with hh | hh
        · exact absurd hh.symm hb
        · exact hh
      rw [ih (fun x hx => hl x (List.mem_cons_of_mem _ hx))
        (List.nodup_cons.1 hnd).2 hmem2]
      omega

theorem countP_beq_of_nodup {α : Type} [BEq α] [LawfulBEq α] {l : List α}
    (hnd : l.Nodup) (n : α) :
    l.countP (fun k => k == n) = if n ∈ l then 1 else 0 := by
  induction l with
  | nil => simp
  | cons a t ih =>
    obtain ⟨hat, hndt⟩ := List.nodup_cons.1 hnd
    rw [List.countP_cons, ih hndt]
    by_cases han : a = n
    · subst han
      simp [hat]
    · simp [beq_eq_false_iff_ne.mpr han, List.mem_cons, Ne.symm han]

theorem countP_chunk_removed {t : FsDepth} (hw : Wf t) (l : List SegPath)
    (hl : ∀ k ∈ l, k ∈ keysOf t) (n : SegPath) :
    (l.map (fun k => ((entryOf t k, none) : FsMod))).countP
        (fun e => eventPath e == n) = l.countP (fun k => k == n) := by
  rw [List.countP_map]
  apply countP_congr_mem
  intro k hk
  obtain ⟨o, ho, hop⟩ := entryOf_some_path hw (hl k hk)
  simp only [Function.comp_apply, eventPath, ho, hop]

theorem countP_chunk_added {t : FsDepth} (hw : Wf t) (l : List SegPath)
    (hl : ∀ k ∈ l, k ∈ keysOf t) (n : SegPath) :
    (l.map (fun k => ((none, entryOf t k) : FsMod))).countP
        (fun e => eventPath e == n) = l.countP (fun k => k == n) := by
  rw [List.countP_map]
  apply countP_congr_mem
  intro k hk
  obtain ⟨o, ho, hop⟩ := entryOf_some_path hw (hl k hk)
  simp only [Function.comp_apply, eventPath, ho, hop]

theorem filter_bothEvents_ne {old new : FsDepth} {p b n : SegPath} {mn : String}
    (hwo : Wf old) (hwn : Wf new) (hpo : old.path = p) (hpn : new.path = p)
    (hbo : b ∈ keysOf old) (hbn : b ∈ keysOf new)
    (hn : n = p ++ [mn]) (hne : b ≠ n) :
    (bothEvents old new b).filter (fun e => n.isPrefixOf (eventPath e)) = [] := by
  obtain ⟨mb, hmb⟩ := keyShape hwo hbo
  rw [hpo] at hmb
  have hmne : (mn == mb) = false := by
    apply beq_eq_false_iff_ne.mpr
    intro hh
    exact hne (by rw [hmb, hn, hh])
  apply List.filter_eq_nil_iff.mpr
  intro e he hpred
  rcases bothEvents_path_shape hwo hwn hpo hpn hbo hbn e he with hsh | ⟨m, r, hsh⟩
  · rw [hsh, hmb, hn] at hpred
    rw [show p ++ [mb] = p ++ mb :: ([] : SegPath) from rfl,
      isPrefixOf_append_cons, hmne] at hpred
    simp at hpred
  · rw [hsh, hmb, hn, List.append_assoc,
      show ([mb] : SegPath) ++ m :: r = mb :: m :: r from rfl,
      isPrefixOf_append_cons, hmne] at hpred
    simp at hpred

theorem filter_compareBoth_not_mem {old new : FsDepth} {p n : SegPath}
    {mn : String}
    (hwo : Wf old) (hwn : Wf new) (hpo : old.path = p) (hpn : new.path = p)
    (hn : n = p ++ [mn]) :
    ∀ (l : List SegPath), (∀ b ∈ l, b ∈ keysOf old ∧ b ∈ keysOf new) →
      n ∉ l →
      (compareBoth old new l).filter (fun e => n.isPrefixOf (eventPath e)) = [] := by
  intro l
  induction l with
  | nil =>
    intro _ _
    rw [compareBoth_nil]
    rfl
  | cons b bs ih =>
    intro hl hnl
    obtain ⟨hbo, hbn⟩ := hl b (List.mem_cons_self _ _)
    have hne : b ≠ n := fun hh => hnl (hh ▸ List.mem_cons_self _ _)
    rw [compareBoth_cons, List.filter_append,
      filter_bothEvents_ne hwo hwn hpo hpn hbo hbn hn hne,
      ih (fun x hx => hl x (List.mem_cons_of_mem _ hx))
        (fun hh => hnl (List.mem_cons_of_mem _ hh))]
    rfl

theorem filter_compareBoth_mem {old new : FsDepth} {p n : SegPath}
    {mn : String}
    (hwo : Wf old) (hwn : Wf new) (hpo : old.path = p) (hpn : new.path = p)
    (hn : n = p ++ [mn]) :
    ∀ (l : List SegPath), (∀ b ∈ l, b ∈ keysOf old ∧ b ∈ keysOf new) →
      l.Nodup → n ∈ l →
      (compareBoth old new l).filter (fun e => n.isPrefixOf (eventPath e))
        = (bothEvents old new n).filter (fun e => n.isPrefixOf (eventPath e)) := by
  intro l
  induction l with
  | nil =>
    intro _ _ hmem
    simp at hmem
  | cons b bs ih =>
    intro hl hnd hmem
    rw [compareBoth_cons, List.filter_append]
    by_cases hb : b = n
    · subst hb
      have hnbs : b ∉ bs := (List.nodup_cons.1 hnd).1
      rw [filter_compareBoth_not_mem hwo hwn hpo hpn hn bs
        (fun x hx => hl x (List.mem_cons_of_mem _ hx)) hnbs]
      simp
    · obtain ⟨hbo, hbn⟩ := hl b (List.mem_cons_self _ _)
      rw [filter_bothEvents_ne hwo hwn hpo hpn hbo hbn hn hb]
      have hmem2 : n ∈ bs := by
        rcases List.mem_cons.1 hmem with hh | hh
        · exact absurd hh.symm hb
        · exact hh
      rw [ih (fun x hx => hl x (List.mem_cons_of_mem _ hx))
        (List.nodup_cons.1 hnd).2 hmem2]
      rfl

theorem filter_chunk_map1 {t : FsDepth} (hw : Wf t) {p n : SegPath}
    {mn : String} (hp : t.path = p) (hn : n = p ++ [mn]) (l : List SegPath)
    (hl : ∀ k ∈ l, k ∈ keysOf t ∧ k ≠ n) :
    (l.map (fun k => ((entryOf t k, none) : FsMod))).filter
      (fun e => n.isPrefixOf (eventPath e)) = [] := by
  apply List.filter_eq_nil_iff.mpr
  intro e he hpred
  obtain ⟨k, hk, hek⟩ := List.mem_map.1 he
  obtain ⟨hkk, hkn⟩ := hl k hk
  obtain ⟨o, ho, hop⟩ := entryOf_some_path hw hkk
  obtain ⟨mk, hmk⟩ := keyShape hw hkk
  rw [hp] at hmk
  have hmkn : (mn == mk) = false := by
    apply beq_eq_false_iff_ne.mpr
    intro hh
    exact hkn (by rw [hmk, hn, hh])
  rw [← hek] at hpred
  simp only [eventPath, ho, hop] at hpred
  rw [hmk, hn, show p ++ [mk] = p ++ mk :: ([] : SegPath) from rfl,
    isPrefixOf_append_cons, hmkn] at hpred
  simp at hpred

theorem filter_chunk_map2 {t : FsDepth} (hw : Wf t) {p n : SegPath}
    {mn : String} (hp : t.path = p) (hn : n = p ++ [mn]) (l : List SegPath)
    (hl : ∀ k ∈ l, k ∈ keysOf t ∧ k ≠ n) :
    (l.map (fun k => ((none, entryOf t k) : FsMod))).filter
      (fun e => n.isPrefixOf (eventPath e)) = [] := by
  apply List.filter_eq_nil_iff.mpr
  intro e he hpred
  obtain ⟨k, hk, hek⟩ := List.mem_map.1 he
  obtain ⟨hkk, hkn⟩ := hl k hk
  obtain ⟨o, ho, hop⟩ := entryOf_some_path hw hkk
  obtain ⟨mk, hmk⟩ := keyShape hw hkk
  rw [hp] at hmk
  have hmkn : (mn == mk) = false := by
    apply beq_eq_false_iff_ne.mpr
    intro hh
    exact hkn (by rw [hmk, hn, hh])
  rw [← hek] at hpred
  simp only [eventPath, ho, hop] at hpred
  rw [hmk, hn, show p ++ [mk] = p ++ mk :: ([] : SegPath) from rfl,
    isPrefixOf_append_cons, hmkn] at hpred
  simp at hpred

theorem nodup_keysOf (t : FsDepth) : (keysOf t).Nodup :=
  List.nodup_dedup _

theorem diff_count_added {old new : FsDepth} {p n : SegPath}
    (hwo : Wf old) (hwn : Wf new) (hpo : old.path = p) (hpn : new.path = p)
    (hnew : n ∈ keysOf new) (hold : n ∉ keysOf old) :
    countAt old new n = 1 := by
  obtain ⟨mn, hmn⟩ := keyShape hwn hnew
  rw [hpn] at hmn
  rw [countAt, compareDepth_eq, List.countP_append, List.countP_append]
  have h1 : ((keysOf old).filter
        (fun k => decide (k ∉ keysOf new))).countP (fun k => k == n) = 0 := by
    rw [countP_beq_of_nodup ((nodup_keysOf old).filter _) n, if_neg]
    intro hmem
    exact hold (List.mem_filter.1 hmem).1
  have h2 : ((keysOf new).filter
        (fun k => decide (k ∉ keysOf old))).countP (fun k => k == n) = 1 := by
    rw [countP_beq_of_nodup ((nodup_keysOf new).filter _) n, if_pos]
    exact List.mem_filter.2 ⟨hnew, by simpa using hold⟩
  have h3 := countP_compareBoth_not_mem hwo hwn hpo hpn hmn
    ((keysOf old).filter (fun k => decide (k ∈ keysOf new)))
    (fun b hb => ⟨(List.mem_filter.1 hb).1, by
      simpa using (List.mem_filter.1 hb).2⟩)
    (fun hmem => hold (List.mem_filter.1 hmem).1)
  rw [countP_chunk_removed hwo _ (fun k hk => (List.mem_filter.1 hk).1) n,
    countP_chunk_added hwn _ (fun k hk => (List.mem_filter.1 hk).1) n,
    h1, h2, h3]

theorem diff_count_removed {old new : FsDepth} {p n : SegPath}
    (hwo : Wf old) (hwn : Wf new) (hpo : old.path = p) (hpn : new.path = p)
    (hold : n ∈ keysOf old) (hnew : n ∉ keysOf new) :
    countAt old new n = 1 := by
  obtain ⟨mn, hmn⟩ := keyShape hwo hold
  rw [hpo] at hmn
  rw [countAt, compareDepth_eq, List.countP_append, List.countP_append]
  have h1 : ((keysOf old).filter
        (fun k => decide (k ∉ keysOf new))).countP (fun k => k == n) = 1 := by
    rw [countP_beq_of_nodup ((nodup_keysOf old).filter _) n, if_pos]
    exact List.mem_filter.2 ⟨hold, by simpa using hnew⟩
  have h2 : ((keysOf new).filter
        (fun k => decide (k ∉ keysOf old))).countP (fun k => k == n) = 0 := by
    rw [countP_beq_of_nodup ((nodup_keysOf new).filter _) n, if_neg]
    intro hmem
    exact hnew (List.mem_filter.1 hmem).1
  have h3 := countP_compareBoth_not_mem hwo hwn hpo hpn hmn
    ((keysOf old).filter (fun k => decide (k ∈ keysOf new)))
    (fun b hb => ⟨(List.mem_filter.1 hb).1, by
      simpa using (List.mem_filter.1 hb).2⟩)
    (fun hmem => hnew (by simpa using (List.mem_filter.1 hmem).2))
  rw [countP_chunk_removed hwo _ (fun k hk => (List.mem_filter.1 hk).1) n,
    countP_chunk_added hwn _ (fun k hk => (List.mem_filter.1 hk).1) n,
    h1, h2, h3]

/-- Shared preamble for keys present on both sides: the two
added/removed chunks contribute nothing and the in-both chunk reduces
to the events of the key itself. -/
theorem countAt_both {old new : FsDepth} {p n : SegPath} {mn : String}
    (hwo : Wf old) (hwn : Wf new) (hpo : old.path = p) (hpn : new.path = p)
    (hko : n ∈ keysOf old) (hkn : n ∈ keysOf new) (hmn : n = p ++ [mn]) :
    countAt old new n
      = (bothEvents old new n).countP (fun e => eventPath e == n) := by
  rw [countAt, compareDepth_eq, List.countP_append, List.countP_append]
  have h1 : ((keysOf old).filter
        (fun k => decide (k ∉ keysOf new))).countP (fun k => k == n) = 0 := by
    rw [countP_beq_of_nodup ((nodup_keysOf old).filter _) n, if_neg]
    intro hmem
    exact (by simpa using (List.mem_filter.1 hmem).2 : n ∉ keysOf new) hkn
  have h2 : ((keysOf new).filter
        (fun k => decide (k ∉ keysOf old))).countP (fun k => k == n) = 0 := by
    rw [countP_beq_of_nodup ((nodup_keysOf new).filter _) n, if_neg]
    intro hmem
    exact (by simpa using (List.mem_filter.1 hmem).2 : n ∉ keysOf old) hko
  have h3 := countP_compareBoth_mem hwo hwn hpo hpn hmn
    ((keysOf old).filter (fun k => decide (k ∈ keysOf new)))
    (fun b hb => ⟨(List.mem_filter.1 hb).1, by
      simpa using (List.mem_filter.1 hb).2⟩)
    ((nodup_keysOf old).filter _)
    (List.mem_filter.2 ⟨hko, by simpa using hkn⟩)
  rw [countP_chunk_removed hwo _ (fun k hk => (List.mem_filter.1 hk).1) n,
    countP_chunk_added hwn _ (fun k hk => (List.mem_filter.1 hk).1) n,
    h1, h2, h3]
  omega

theorem diff_count_others {old new : FsDepth} {p n : SegPath}
    {oobj nobj : FsNotDir}
    (hwo : Wf old) (hwn : Wf new) (hpo : old.path = p) (hpn : new.path = p)
    (h1 : old.others.lookup n = some oobj)
    (h2 : new.others.lookup n = some nobj) :
    countAt old new n = if oobj = nobj then 0 else 1 := by
  have hko : n ∈ keysOf old := mem_keysOf_iff.2 (.inl (mem_keys_of_lookup h1))
  have hkn : n ∈ keysOf new := mem_keysOf_iff.2 (.inl (mem_keys_of_lookup h2))
  obtain ⟨mn, hmn⟩ := keyShape hwo hko
  rw [hpo] at hmn
  rw [countAt_both hwo hwn hpo hpn hko hkn hmn,
    bothEvents_other_other h1 h2]
  by_cases hob : oobj = nobj
  · simp [hob]
  · rw [if_neg hob, if_neg hob]
    have hpath : eventPath ((some (FsObj.other oobj), some (FsObj.other nobj)))
        = n := by
      simp only [eventPath, FsObj.path]
      exact others_lookup_path hwo h1
    simp [List.countP_cons, hpath]

theorem diff_count_kind_other_dir {old new : FsDepth} {p n : SegPath}
    {oobj : FsNotDir}
    (hwo : Wf old) (hwn : Wf new) (hpo : old.path = p) (hpn : new.path = p)
    (h1 : old.others.lookup n = some oobj)
    (h2 : new.others.lookup n = none) (hkn : n ∈ keysOf new) :
    countAt old new n = 1 := by
  have hko : n ∈ keysOf old := mem_keysOf_iff.2 (.inl (mem_keys_of_lookup h1))
  obtain ⟨mn, hmn⟩ := keyShape hwo hko
  rw [hpo] at hmn
  rcases keysOf_cases hwn hkn with ⟨nobj, hn1, _⟩ | ⟨_, nd, hn2⟩
  · rw [hn1] at h2
    exact absurd h2 (by simp)
  · rw [countAt_both hwo hwn hpo hpn hko hkn hmn,
      bothEvents_other_dir h1 h2 hn2]
    have hpath : eventPath ((some (FsObj.other oobj), some (FsObj.dir nd)))
        = n := by
      simp only [eventPath, FsObj.path]
      exact others_lookup_path hwo h1
    simp [List.countP_cons, hpath]

theorem diff_count_kind_dir_other {old new : FsDepth} {p n : SegPath}
    {nobj : FsNotDir}
    (hwo : Wf old) (hwn : Wf new) (hpo : old.path = p) (hpn : new.path = p)
    (h1 : old.others.lookup n = none) (hko : n ∈ keysOf old)
    (h2 : new.others.lookup n = some nobj) :
    countAt old new n = 1 := by
  have hkn : n ∈ keysOf new := mem_keysOf_iff.2 (.inl (mem_keys_of_lookup h2))
  obtain ⟨mn, hmn⟩ := keyShape hwo hko
  rw [hpo] at hmn
  rcases keysOf_cases hwo hko with ⟨oobj, ho1, _⟩ | ⟨_, od, ho2⟩
  · rw [ho1] at h1
    exact absurd h1 (by simp)
  · have hn2 : new.dirs.lookup n = none := by
      apply lookup_eq_none_of_not_mem_keys
      intro hmem
      have := others_dirs_disjoint hwn hmem
      rw [this] at h2
      exact absurd h2 (by simp)
    rw [countAt_both hwo hwn hpo hpn hko hkn hmn,
      bothEvents_dir_other h1 ho2 hn2 h2]
    have hpath : eventPath ((some (FsObj.dir od), some (FsObj.other nobj)))
        = n := by
      simp only [eventPath, FsObj.path]
      exact dirs_lookup_path hwo ho2
    simp [List.countP_cons, hpath]

theorem diff_under_dirs {old new : FsDepth} {p n : SegPath} {od nd : FsDepth}
    (hwo : Wf old) (hwn : Wf new) (hpo : old.path = p) (hpn : new.path = p)
    (h1 : old.dirs.lookup n = some od) (h2 : new.dirs.lookup n = some nd)
    (h3 : old.others.lookup n = none) (h4 : new.others.lookup n = none) :
    eventsUnder old new n = compareDepth od nd := by
  have hko : n ∈ keysOf old := mem_keysOf_iff.2 (.inr (mem_keys_of_lookup h1))
  have hkn : n ∈ keysOf new := mem_keysOf_iff.2 (.inr (mem_keys_of_lookup h2))
  obtain ⟨mn, hmn⟩ := keyShape hwo hko
  rw [hpo] at hmn
  rw [eventsUnder, compareDepth_eq, List.filter_append, List.filter_append]
  have hc1 := filter_chunk_map1 hwo hpo hmn
    ((keysOf old).filter (fun k => decide (k ∉ keysOf new)))
    (fun k hk => ⟨(List.mem_filter.1 hk).1, fun hh => by
      subst hh
      exact (by simpa using (List.mem_filter.1 hk).2 : k ∉ keysOf new) hkn⟩)
  have hc2 := filter_chunk_map2 hwn hpn hmn
    ((keysOf new).filter (fun k => decide (k ∉ keysOf old)))
    (fun k hk => ⟨(List.mem_filter.1 hk).1, fun hh => by
      subst hh
      exact (by simpa using (List.mem_filter.1 hk).2 : k ∉ keysOf old) hko⟩)
  have hc3 := filter_compareBoth_mem hwo hwn hpo hpn hmn
    ((keysOf old).filter (fun k => decide (k ∈ keysOf new)))
    (fun b hb => ⟨(List.mem_filter.1 hb).1, by
      simpa using (List.mem_filter.1 hb).2⟩)
    ((nodup_keysOf old).filter _)
    (List.mem_filter.2 ⟨hko, by simpa using hkn⟩)
  rw [hc1, hc2, hc3, bothEvents_dir_dir h3 h1 h2]
  rw [List.nil_append, List.nil_append]
  apply List.filter_eq_self.mpr
  intro e he
  obtain ⟨m, r, hm⟩ := eventPath_extends (sizeOf od) od nd n le_rfl
    (dirs_lookup_wf hwo h1) (dirs_lookup_wf hwn h2)
    (dirs_lookup_path hwo h1) (dirs_lookup_path hwn h2) e he
  rw [hm, isPrefixOf_append_self]

/-- The tracked directory before the span: it contains `b.txt`. -/
def snapBefore : FsDepth :=
  .mk ["work"] [] [(["work", "b.txt"], ⟨["work", "b.txt"], 420, 3, 1⟩)]

/-- After the span, creation scenario: a net-new `a.txt` appeared. -/
def snapAfterCreate : FsDepth :=
  .mk ["work"] []
    [(["work", "b.txt"], ⟨["work", "b.txt"], 420, 3, 1⟩),
     (["work", "a.txt"], ⟨["work", "a.txt"], 420, 2, 7⟩)]

/-- After the span, mutation scenario: the bytes of the pre-existing
`b.txt` changed (new checksum), no new file. -/
def snapAfterModify : FsDepth :=
  .mk ["work"] [] [(["work", "b.txt"], ⟨["work", "b.txt"], 420, 3, 2⟩)]

/-- C5: exactness of the snapshot diff.  (a) Diffing a snapshot level
against itself yields zero change events.  (b) For every pair of
wellformed snapshot levels over the same directory: an added key
produces exactly one event, a removed key exactly one, a non-directory
entry present on both sides produces one event exactly when its
recorded data (mode, size, content hash) changed, a file/directory
kind change produces exactly one event, the events lying under a
directory present on both sides are exactly the recursive diff of the
two subtrees (so the same exactness applies level by level), and an
unchanged subtree contributes no events at all. -/
theorem snapshot_diff_exactness :
    (∀ d : FsDepth, compareDepth d d = []) ∧
    (∀ old new p, Wf old → Wf new →
        FsDepth.path old = p → FsDepth.path new = p →
      (∀ n, n ∈ keysOf new → n ∉ keysOf old → countAt old new n = 1) ∧
      (∀ n, n ∈ keysOf old → n ∉ keysOf new → countAt old new n = 1) ∧
      (∀ n oobj nobj, old.others.lookup n = some oobj →
          new.others.lookup n = some nobj →
          countAt old new n = if oobj = nobj then 0 else 1) ∧
      (∀ n oobj, old.others.lookup n = some oobj →
          new.others.lookup n = none → n ∈ keysOf new →
          countAt old new n = 1) ∧
      (∀ n nobj, old.others.lookup n = none → n ∈ keysOf old →
          new.others.lookup n = some nobj → countAt old new n = 1) ∧
      (∀ n od nd, old.dirs.lookup n = some od → new.dirs.lookup n = some nd →
          old.others.lookup n = none → new.others.lookup n = none →
          eventsUnder old new n = compareDepth od nd) ∧
      (∀ n od, old.dirs.lookup n = some od → new.dirs.lookup n = some od →
          old.others.lookup n = none → new.others.lookup n = none →
          eventsUnder old new n = [])) := by
  refine ⟨compareDepth_self, ?_⟩
  intro old new p hwo hwn hpo hpn
  refine ⟨fun n h1 h2 => diff_count_added hwo hwn hpo hpn h1 h2,
    fun n h1 h2 => diff_count_removed hwo hwn hpo hpn h1 h2,
    fun n oobj nobj h1 h2 => diff_count_others hwo hwn hpo hpn h1 h2,
    fun n oobj h1 h2 h3 => diff_count_kind_other_dir hwo hwn hpo hpn h1 h2 h3,
    fun n nobj h1 h2 h3 => diff_count_kind_dir_other hwo hwn hpo hpn h1 h2 h3,
    fun n od nd h1 h2 h3 h4 => diff_under_dirs hwo hwn hpo hpn h1 h2 h3 h4,
    fun n od h1 h2 h3 h4 => ?_⟩
  rw [diff_under_dirs hwo hwn hpo hpn h1 h2 h3 h4, compareDepth_self]

theorem wf_snapBefore : Wf snapBefore := by
  unfold snapBefore
  refine Wf.intro _ _ _ (by decide) ?_ ?_ ?_ ?_ ?_
  · intro e he
    simp only [List.mem_singleton] at he
    subst he
    rfl
  · intro e he
    simp at he
  · intro e he
    simp only [List.mem_singleton] at he
    subst he
    exact ⟨"b.txt", rfl⟩
  · intro e he
    simp at he
  · intro e he
    simp at he

theorem wf_snapAfterCreate : Wf snapAfterCreate := by
  unfold snapAfterCreate
  refine Wf.intro _ _ _ (by decide) ?_ ?_ ?_ ?_ ?_
  · intro e he
    simp only [List.mem_cons, List.not_mem_nil, or_false] at he
    rcases he with rfl | rfl <;> rfl
  · intro e he
    simp at he
  · intro e he
    simp only [List.mem_cons, List.not_mem_nil, or_false] at he
    rcases he with rfl | rfl
    · exact ⟨"b.txt", rfl⟩
    · exact ⟨"a.txt", rfl⟩
  · intro e he
    simp at he
  · intro e he
    simp at he

theorem wf_snapAfterModify : Wf snapAfterModify := by
  unfold snapAfterModify
  refine Wf.intro _ _ _ (by decide) ?_ ?_ ?_ ?_ ?_
  · intro e he
    simp only [List.mem_singleton] at he
    subst he
    rfl
  · intro e he
    simp at he
  · intro e he
    simp only [List.mem_singleton] at he
    subst he
    exact ⟨"b.txt", rfl⟩
  · intro e he
    simp at he
  · intro e he
    simp at he

theorem snapshot_diff_exactness_witness :
    compareDepth snapBefore snapBefore = [] ∧
    countAt snapBefore snapAfterCreate ["work", "a.txt"] = 1 ∧
    countAt snapBefore snapAfterModify ["work", "b.txt"] = 1 := by
  obtain ⟨hself, hgen⟩ := snapshot_diff_exactness
  refine ⟨hself snapBefore, ?_, ?_⟩
  · exact (hgen snapBefore snapAfterCreate ["work"] wf_snapBefore
      wf_snapAfterCreate rfl rfl).1 ["work", "a.txt"] (by decide) (by decide)
  · have h := (hgen snapBefore snapAfterModify ["work"] wf_snapBefore
      wf_snapAfterModify rfl rfl).2.2.1 ["work", "b.txt"]
      ⟨["work", "b.txt"], 420, 3, 1⟩ ⟨["work", "b.txt"], 420, 3, 2⟩
      (by rfl) (by rfl)
    simpa using h

/-! ### C2: `FileTracker.start` / `stop`

`stop` iterates `self._list.modifications()`; for every `(old, new)`
event: a non-`None` `old` raises
`RuntimeError(f"... changed in some unpredictable way")`; otherwise the
new path is appended to `self[self._key]` — a `dbm` read that raises
`KeyError` when the key has no persisted entry yet.  The persisted store
is an association list from keys to path lists. -/

/-- Store update `self[key] = objs` (`dbm` write). -/
def setStore (s : List (String × List SegPath)) (k : String) (v : List SegPath) :
    List (String × List SegPath) :=
  match s with
  | [] => [(k, v)]
  | (k', v') :: rest =>
    if k' = k then (k', v) :: rest else (k', v') :: setStore rest k v

/-- The event loop of `FileTracker.stop`. -/
def stopLoop (store : List (String × List SegPath)) (key : String) :
    List FsMod → Except PyExc (List (String × List SegPath))
  | [] => .ok store
  | (o, n) :: rest =>
    match o with
    | some oo => .error (.runtimeError oo.path)
    | none =>
      match n with
      | some nn =>
        match store.lookup key with
        | none => .error .keyError
        | some objs => stopLoop (setStore store key (objs ++ [nn.path])) key rest
      | none => .error (.other "AssertionError")

/-- `stop()` after `start(key)`: diff the snapshot pair, then run the
event loop against the persisted store. -/
def fileTrackerStop (store : List (String × List SegPath)) (key : String)
    (old new : FsDepth) : Except PyExc (List (String × List SegPath)) :=
  stopLoop store key (compareDepth old new)

theorem compareDepth_create :
    compareDepth snapBefore snapAfterCreate
      = [(none, some (.other ⟨["work", "a.txt"], 420, 2, 7⟩))] := by
  rw [compareDepth_eq]
  have hboth : (keysOf snapBefore).filter
      (fun k => decide (k ∈ keysOf snapAfterCreate)) = [["work", "b.txt"]] := by
    decide
  rw [hboth, compareBoth_cons, compareBoth_nil, bothEvents.eq_def]
  rfl

theorem compareDepth_modify :
    compareDepth snapBefore snapAfterModify
      = [(some (.other ⟨["work", "b.txt"], 420, 3, 1⟩),
          some (.other ⟨["work", "b.txt"], 420, 3, 2⟩))] := by
  rw [compareDepth_eq]
  have hboth : (keysOf snapBefore).filter
      (fun k => decide (k ∈ keysOf snapAfterModify)) = [["work", "b.txt"]] := by
    decide
  rw [hboth, compareBoth_cons, compareBoth_nil, bothEvents.eq_def]
  rfl

/-- C2: end-to-end behaviour of `stop`.
(1) With a fresh (empty) persisted store, one net-new `a.txt` makes
`stop` raise `KeyError` when it reads the absent entry for `k` — the
claimed result (store maps `k` to `["a.txt"]`) is unreachable; the spec
and its test scenario require the append to succeed, so this is a slip
in the code (its own `TODO: handle errors` comment marks the spot).
(2) Were the entry pre-seeded empty, the net-new path would be appended,
confirming the intended append semantics.
(3) Mutating the bytes of pre-existing `b.txt` raises the
`RuntimeError` (`... changed in some unpredictable way`) that realizes
the spec's `UnexpectedFsMutation`, with or without a persisted entry,
and records nothing. -/
theorem filetracker_stop_behavior :
    fileTrackerStop [] "k" snapBefore snapAfterCreate = .error .keyError ∧
    fileTrackerStop [("k", [])] "k" snapBefore snapAfterCreate
      = .ok [("k", [["work", "a.txt"]])] ∧
    fileTrackerStop [] "k" snapBefore snapAfterModify
      = .error (.runtimeError ["work", "b.txt"]) ∧
    fileTrackerStop [("k", [])] "k" snapBefore snapAfterModify
      = .error (.runtimeError ["work", "b.txt"]) := by
  refine ⟨?_, ?_, ?_, ?_⟩ <;>
    simp only [fileTrackerStop, compareDepth_create, compareDepth_modify] <;>
    rfl

/-! ## C6: `_untar_or_unzip` (toolchain/kernel/build.py)

The in-memory archive is abstracted by what the two external extractors
would produce: `tarfile.open(...).extractall(to)` and
`zipfile.ZipFile(...).extractall(to)` each either populate the fresh
target directory with a tree or raise.  The target directory's contents
after extraction are a list of named nodes. -/

/-- One entry of the extracted directory (name plus, for directories,
its own contents). -/
inductive FsNode where
  | file (name : String)
  | dir (name : String) (children : List FsNode)

/-- `_rm_nested_dir`: inspect the freshly extracted target.  An empty
directory makes `next(iterator)` raise `StopIteration`; a single entry
is hoisted — but the code iterates `inner.iterdir()` without checking
that `inner` is a directory, so a single top-level *file* raises
`NotADirectoryError`; two or more entries are left untouched. -/
def rmNestedDir (t : List FsNode) : Except PyExc (List FsNode) :=
  match t with
  | [] => .error .stopIteration
  | [n] =>
    match n with
    | .dir _ children => .ok children
    | .file _ => .error .notADirectory
  | _ => .ok t

/-- `_untar_or_unzip`: try tar extraction, fall back to zip, aggregate
both errors if both fail; on success normalize with `_rm_nested_dir`. -/
def untarOrUnzip (tarRes zipRes : Except PyExc (List FsNode)) :
    Except PyExc (List FsNode) :=
  match tarRes with
  | .ok t => rmNestedDir t
  | .error e1 =>
    match zipRes with
    | .ok t => rmNestedDir t
    | .error e2 => .error (.exceptionGroup e1 e2)

/-- C6 counterexample: an archive whose top level is exactly one
regular file.  The claim says hoisting happens if and only if the top
level is exactly one directory, and otherwise the extracted root is
left as extracted; but `_rm_nested_dir` iterates the single entry
without checking its kind, so extraction fails with
`NotADirectoryError` instead of succeeding unchanged. -/
theorem untar_single_file_cx :
    untarOrUnzip (.ok [FsNode.file "README"]) (.ok []) = .error .notADirectory ∧
    untarOrUnzip (.ok [FsNode.file "README"]) (.ok [])
      ≠ .ok [FsNode.file "README"] := by
  constructor
  · rfl
  · intro h
    rw [show untarOrUnzip (.ok [FsNode.file "README"]) (.ok [])
          = Except.error PyExc.notADirectory from rfl] at h
    exact Except.noConfusion h

/-- C6 (amended): extraction first attempts tar and only then zip
(a tar success never consults the zip attempt), raises the aggregated
`ExceptionGroup` exactly when both fail, and normalizes the result:
a top level consisting of exactly one directory is hoisted (the wrapper
disappears and its children become the root's contents); a multi-entry
top level is returned unchanged; the two remaining shapes fail — a
single top-level file raises `NotADirectoryError` and an empty
extraction raises `StopIteration`. -/
theorem untar_or_unzip_spec (t : List FsNode) (e1 e2 : PyExc)
    (z : Except PyExc (List FsNode)) :
    (untarOrUnzip (.ok t) z = rmNestedDir t) ∧
    (untarOrUnzip (.error e1) (.ok t) = rmNestedDir t) ∧
    (untarOrUnzip (.error e1) (.error e2) = .error (.exceptionGroup e1 e2)) ∧
    (∀ name children, rmNestedDir [FsNode.dir name children] = .ok children) ∧
    (∀ x y rest, rmNestedDir (x :: y :: rest) = .ok (x :: y :: rest)) ∧
    (∀ name, rmNestedDir [FsNode.file name] = .error .notADirectory) ∧
    (rmNestedDir [] = .error .stopIteration) := by
  refine ⟨rfl, rfl, rfl, fun name children => rfl, fun x y rest => rfl,
    fun name => rfl, rfl⟩

theorem untar_or_unzip_spec_witness :
    untarOrUnzip (.ok [FsNode.dir "gcc-12.1.0" [FsNode.file "configure"]])
        (.error .valueError)
      = rmNestedDir [FsNode.dir "gcc-12.1.0" [FsNode.file "configure"]] ∧
    rmNestedDir [FsNode.dir "gcc-12.1.0" [FsNode.file "configure"]]
      = .ok [FsNode.file "configure"] :=
  ⟨(untar_or_unzip_spec [FsNode.dir "gcc-12.1.0" [FsNode.file "configure"]]
      PyExc.valueError PyExc.valueError (.error .valueError)).1,
   (untar_or_unzip_spec [] PyExc.valueError PyExc.valueError
      (.error .valueError)).2.2.2.1 "gcc-12.1.0" [FsNode.file "configure"]⟩

/-! ## C4: `Step._do_call` failure policy and `main` (toolchain/kernel/build.py)

A step invocation is reduced to the outcome of its bound action function
(`Except PyExc Unit`): success, a cancellation signal
(`KeyboardInterrupt`), an already-handled abort marker (`AlreadyPrinted`,
a repository exception class whose definition is not under src/ — it is
Modelled from the spec as the `PipelineAborted` abort marker, an
exception type distinguished only by identity), or any other error with
a message.  The interactive `input("Continue ? [y/N]: ")` answer is
injected as a string, compared via `prompt.lower() != "y"` as in the
code.  Log output is modelled as a trace of events. -/

/-- Observable log/interaction events of one run.  `stepFailureDetail`
carries the failing exception (the code prints it with its traceback). -/
inductive LogEvent where
  | stepStart
  | stepFailureShort
  | stepFailureDetail (e : PyExc)
  | promptShown
  | aborting
  | continuing
  | stepSuccess
  | topFailureShort
  | topFailureDetail
deriving DecidableEq, Repr

/-- Python `s.lower()` restricted to what the prompt comparison needs:
lower-case every character. -/
def pyLower (s : String) : String :=
  String.mk (s.toList.map Char.toLower)

/-- Outcome recorded for a step. -/
inductive StepOutcome where
  | succeeded
  | failedRecovered
  | failedAborted
deriving DecidableEq, Repr

/-- `Step._do_call` (non-substep path): run the bound function; re-raise
`KeyboardInterrupt`; on `AlreadyPrinted` print the short failure and fall
through; on any other error print the detailed failure, prompt, and
either continue (answer `y`, case-insensitive) or raise `AlreadyPrinted`. -/
def doCall (answer : String) (fn : Except PyExc Unit) :
    Except PyExc StepOutcome × List LogEvent :=
  match fn with
  | .ok _ => (.ok .succeeded, [.stepStart, .stepSuccess])
  | .error .keyboardInterrupt => (.error .keyboardInterrupt, [.stepStart])
  | .error .alreadyPrinted =>
      (.ok .failedRecovered, [.stepStart, .stepFailureShort, .stepSuccess])
  | .error e =>
      if pyLower answer ≠ "y" then
        (.error .alreadyPrinted,
          [.stepStart, .stepFailureDetail e, .promptShown, .aborting])
      else
        (.ok .failedRecovered,
          [.stepStart, .stepFailureDetail e, .promptShown, .continuing,
           .stepSuccess])

/-- Sequential execution of the pipeline's steps; an uncaught exception
from one step short-circuits all later steps. -/
def runSteps (answer : String) :
    List (Except PyExc Unit) → Except PyExc (List StepOutcome) × List LogEvent
  | [] => (.ok [], [])
  | fn :: rest =>
    match doCall answer fn with
    | (.ok oc, log) =>
      match runSteps answer rest with
      | (.ok ocs, log2) => (.ok (oc :: ocs), log ++ log2)
      | (.error e, log2) => (.error e, log ++ log2)
    | (.error e, log) => (.error e, log)

/-- `main`: run the pipeline; `except AlreadyPrinted` logs only the short
top-level failure and returns 1; `except BaseException` logs the detailed
top-level failure and returns 1; otherwise return 0.  The first component
is the process exit code. -/
def mainRun (answer : String) (steps : List (Except PyExc Unit)) :
    Nat × Except PyExc (List StepOutcome) × List LogEvent :=
  match runSteps answer steps with
  | (.ok ocs, log) => (0, .ok ocs, log)
  | (.error .alreadyPrinted, log) =>
      (1, .error .alreadyPrinted, log ++ [.topFailureShort])
  | (.error e, log) => (1, .error e, log ++ [.topFailureDetail])

/-- C4 counterexample: one step whose action always fails with an
ordinary error, affirmative continue answer.  The pipeline completes and
the step is recorded as recovered, but the overall exit code is 0, not
the non-zero status the claim requires: a recovered failure leaves no
trace in the process status. -/
theorem recovery_exit_code_cx :
    (mainRun "y" [Except.error (PyExc.other "boom")]).1 = 0 ∧
    (mainRun "y" [Except.error (PyExc.other "boom")]).2.1
      = .ok [StepOutcome.failedRecovered] := by
  have hy : ¬ pyLower "y" ≠ "y" := by decide
  constructor
  · simp only [mainRun, runSteps, doCall, if_neg hy]
  · simp only [mainRun, runSteps, doCall, if_neg hy]

/-- C4 (amended): for a step whose action always raises a
non-cancellation error: an affirmative continue decision lets the
pipeline run to completion with that step recorded as recovered and the
overall exit code 0 (recovered failures do not make the process status
non-zero); a negative decision terminates immediately with the
`AlreadyPrinted` abort marker, no subsequent step executes, the failure
is not re-logged in detail at the top level, and the exit code is 1; and
a cancellation signal aborts immediately with exit code 1 without ever
invoking the prompt. -/
theorem recovery_policy (msg : String) (answer : String)
    (rest : List (Except PyExc Unit)) (hrest : ∀ s ∈ rest, s = .ok ()) :
    (mainRun "y" (.error (.other msg) :: rest)
      = (0, .ok (.failedRecovered :: rest.map (fun _ => .succeeded)),
         [.stepStart, .stepFailureDetail (PyExc.other msg),
          .promptShown, .continuing, .stepSuccess]
           ++ rest.flatMap (fun _ => [.stepStart, .stepSuccess]))) ∧
    (pyLower answer ≠ "y" →
      mainRun answer (.error (.other msg) :: rest)
        = (1, .error .alreadyPrinted,
           [.stepStart, .stepFailureDetail (PyExc.other msg),
            .promptShown, .aborting, .topFailureShort])) ∧
    (mainRun answer (.error .keyboardInterrupt :: rest)
      = (1, .error .keyboardInterrupt, [.stepStart, .topFailureDetail])) := by
  have hy : ¬ pyLower "y" ≠ "y" := by decide
  refine ⟨?_, ?_, ?_⟩
  · have hall : runSteps "y" rest
        = (.ok (rest.map (fun _ => .succeeded)),
           rest.flatMap (fun _ => [.stepStart, .stepSuccess])) := by
      induction rest with
      | nil => rfl
      | cons s tl ih =>
        have hs : s = .ok () := hrest s (List.mem_cons_self _ _)
        have htl : ∀ x ∈ tl, x = .ok () := fun x hx => hrest x (List.mem_cons_of_mem s hx)
        have ihtl := ih htl
        subst hs
        simp only [runSteps, doCall, ihtl, List.map_cons, List.flatMap_cons]
    simp only [mainRun, runSteps, doCall, if_neg hy]
    rw [hall]
  · intro hn
    simp only [mainRun, runSteps, doCall, if_pos hn]
    rfl
  · simp only [mainRun, runSteps, doCall]
    rfl

theorem recovery_policy_witness :
    (mainRun "y" [Except.error (PyExc.other "fail"), Except.ok ()]
      = (0, .ok [.failedRecovered, .succeeded],
         [.stepStart, .stepFailureDetail (PyExc.other "fail"),
          .promptShown, .continuing, .stepSuccess, .stepStart, .stepSuccess])) ∧
    (mainRun "n" [Except.error (PyExc.other "fail"), Except.ok ()]
      = (1, .error .alreadyPrinted,
         [.stepStart, .stepFailureDetail (PyExc.other "fail"),
          .promptShown, .aborting, .topFailureShort])) ∧
    (mainRun "n" [Except.error PyExc.keyboardInterrupt, Except.ok ()]
      = (1, .error .keyboardInterrupt, [.stepStart, .topFailureDetail])) := by
  obtain ⟨h1, h2, h3⟩ := recovery_policy "fail" "n" [Except.ok ()]
    (by intro s hs; simpa using hs)
  exact ⟨by simpa using h1, by simpa using h2 (by decide), h3⟩

end Kronix
